import Mathlib

/-!
# env-run: environment composition and launch strategies

A shallow embedding of the two programs of the repository:

* `env_run.go` (namespace `EnvRunGo`): loads one env file without overriding
  the existing environment, starts the command as a supervised child, relays
  signals and passes the exit code through;
* `main.go` (namespace `MainGo`): overloads a list of env files, restores the
  original environment over them and replaces the process image.

The process environment is modelled the way the Go `syscall` package keeps
it: a slice `envs` of raw `key=value` strings, indexed by first mention of a
key.  The calls into the standard library and into `godotenv` that the two
programs make (`os.Environ`, `os.Setenv`, `strings.SplitN`, `godotenv.Load`,
`godotenv.Overload`, `os.Stat`, `exec.Cmd.Wait`, `os.Exit`) are modelled in
namespace `Go`, the programs themselves line by line after that.
Diagnostics written to the error stream are not part of the model.
-/

namespace Go

/-! ### Strings -/

/-- The NUL byte. -/
def NUL : Char := Char.ofNat 0

/-- Cut a string at its first `=`: the text before it and the text after it,
or `none` when there is no `=`. -/
def cutEq : List Char → Option (List Char × List Char)
  | [] => none
  | c :: cs =>
    if c = '=' then some ([], cs)
    else
      match cutEq cs with
      | none => none
      | some (a, b) => some (c :: a, b)

/-- Model of `strings.SplitN(s, "=", 2)`: one part when `s` has no `=`,
otherwise the text before the first `=` and the text after it. -/
def SplitN2 (s : String) : List String :=
  match cutEq s.data with
  | none => [s]
  | some (a, b) => [String.mk a, String.mk b]

/-- Model of `strings.Split(s, "=")[0]`: the text before the first `=`, or all
of `s` when it has none. -/
def SplitHead (s : String) : String :=
  match cutEq s.data with
  | none => s
  | some (a, _) => String.mk a

/-! ### The environment of the process (package `syscall`) -/

/-- Key and value of a raw environment entry, when it has an `=`. -/
def entryKV (s : String) : Option (String × String) :=
  match cutEq s.data with
  | none => none
  | some (a, b) => some (String.mk a, String.mk b)

/-- Key under which `copyenv` indexes a raw entry: `s[:j]` for the first `j`
with `s[j] == '='`; entries without `=` are not indexed. -/
def entryKey (s : String) : Option String :=
  match entryKV s with
  | none => none
  | some (k, _) => some k

/-- Model of the runtime reading one C string of the environment block: the
bytes before the first NUL. -/
def gostring (s : String) : String :=
  String.mk (s.data.takeWhile (fun c => c != NUL))

/-- Model of `runtime_envs()`: the environment block the process was started
with, as Go strings. -/
def goenvs (envp : List String) : List String :=
  envp.map gostring

/-- Loop of `copyenv`: the first mention of a key is kept, a later entry
with a key already seen is cleared to the empty string. -/
def copyenvFrom (seen : List String) : List String → List String
  | [] => []
  | s :: rest =>
    match entryKey s with
    | none => s :: copyenvFrom seen rest
    | some key =>
      if key ∈ seen then "" :: copyenvFrom seen rest
      else s :: copyenvFrom (key :: seen) rest

/-- Model of `copyenv`, run once before the first use of the environment. -/
def copyenv (envs : List String) : List String :=
  copyenvFrom [] envs

/-- The slice `envs` of a freshly started process. -/
def initialEnvs (envp : List String) : List String :=
  copyenv (goenvs envp)

/-- Model of `os.Environ()`: the entries of `envs` that are not cleared. -/
def Environ (envs : List String) : List String :=
  envs.filter (fun s => s != "")

/-- Error numbers. -/
inductive Errno where
  | EINVAL
  deriving DecidableEq, Repr

/-- Write `kv` over the entry indexed under `key` (its first mention), or
append it when the key is not indexed. -/
def setEntry (key kv : String) : List String → List String
  | [] => [kv]
  | s :: rest =>
    if entryKey s = some key then kv :: rest
    else s :: setEntry key kv rest

/-- Model of `os.Setenv(key, value)`: `EINVAL` for an empty key, for a key
holding `=` or NUL and for a value holding NUL; otherwise the entry
`key=value` replaces the one of that key or is appended. -/
def Setenv (envs : List String) (key value : String) : Except Errno (List String) :=
  if key.data.length = 0 then Except.error Errno.EINVAL
  else if key.data.any (fun c => c == '=' || c == NUL) then Except.error Errno.EINVAL
  else if value.data.any (fun c => c == NUL) then Except.error Errno.EINVAL
  else Except.ok (setEntry key (key ++ "=" ++ value) envs)

/-- A call `_ = os.Setenv(key, value)`: the error is dropped and the
environment is left as it was. -/
def setenvIgnore (envs : List String) (key value : String) : List String :=
  match Setenv envs key value with
  | Except.ok envs1 => envs1
  | Except.error _ => envs

/-- Value a program started with the environment `env` finds for `k`: the
value of the first entry `k=value`. -/
def lookupEnv (k : String) : List String → Option String
  | [] => none
  | s :: rest =>
    match entryKV s with
    | none => lookupEnv k rest
    | some (k1, v) => if k1 = k then some v else lookupEnv k rest

/-! ### Files and `godotenv` -/

/-- A parsed env file, `map[string]string`, as the list of its pairs in the
order the `range` loop visits them. -/
abbrev EnvMap := List (String × String)

/-- What the file system holds at a path. -/
inductive FileState where
  /-- The call `os.Stat` fails: there is no such file. -/
  | absent
  /-- The file exists and `godotenv` fails to read or parse it. -/
  | unparsable
  /-- The file exists and parses to the given pairs. -/
  | parsed (envMap : EnvMap)
  deriving DecidableEq, Repr

/-- A file system: the state of every path. -/
abbrev FileSystem := String → FileState

/-- Model of `_, err := os.Stat(path); err == nil`. -/
def Stat (fsys : FileSystem) (path : String) : Bool :=
  match fsys path with
  | FileState.absent => false
  | _ => true

/-- Model of `godotenv.readFile`: the parsed pairs, or an error. -/
def readFile (fsys : FileSystem) (filename : String) : Except String EnvMap :=
  match fsys filename with
  | FileState.parsed envMap => Except.ok envMap
  | FileState.unparsable => Except.error "parse error"
  | FileState.absent => Except.error "no such file"

/-- Model of `godotenv.loadFile(filename, overload)`: `currentEnv` holds
`strings.Split(line, "=")[0]` of every line of `os.Environ()`, taken once
before the loop; a pair is set when its key is not in `currentEnv` or when
`overload` is true, and the error of `os.Setenv` is dropped. -/
def loadFile (fsys : FileSystem) (envs : List String) (filename : String)
    (overload : Bool) : Except String (List String) :=
  match readFile fsys filename with
  | Except.error err => Except.error err
  | Except.ok envMap =>
    let currentEnv := (Environ envs).map SplitHead
    Except.ok (envMap.foldl
      (fun e kv => if !(currentEnv.contains kv.1) || overload then setenvIgnore e kv.1 kv.2 else e)
      envs)

/-- Model of `godotenv.Load(filename)`. -/
def Load (fsys : FileSystem) (envs : List String) (filename : String) :
    Except String (List String) :=
  loadFile fsys envs filename false

/-- Model of `godotenv.Overload(filename)`. -/
def Overload (fsys : FileSystem) (envs : List String) (filename : String) :
    Except String (List String) :=
  loadFile fsys envs filename true

/-! ### Child processes (packages `os` and `os/exec`) -/

/-- How a started child ends, as seen by the wait of the parent. -/
inductive Termination where
  /-- The child exits normally with the given status. -/
  | exited (code : Nat)
  /-- The child is killed by the given signal. -/
  | signaled (sig : Nat)
  /-- Waiting on the child fails. -/
  | waitFailed
  deriving DecidableEq, Repr

/-- Model of `os.ProcessState`. -/
inductive ProcessState where
  | exited (code : Nat)
  | signaled (sig : Nat)
  deriving DecidableEq, Repr

/-- Model of `ProcessState.ExitCode()`: the exit code of an exited process,
`-1` for a process terminated by a signal. -/
def ProcessState.ExitCode : ProcessState → Int
  | ProcessState.exited code => (code : Int)
  | ProcessState.signaled _ => -1

/-- The error value returned by `cmd.Wait()`. -/
inductive WaitErr where
  /-- The `nil` error: the command ran and exited with status 0. -/
  | nil
  /-- An `*exec.ExitError`: the command did not complete successfully. -/
  | exitError (state : ProcessState)
  /-- An error of another type. -/
  | other
  deriving DecidableEq, Repr

/-- Model of `cmd.Wait()`. -/
def Wait : Termination → WaitErr
  | Termination.exited code =>
    if code = 0 then WaitErr.nil else WaitErr.exitError (ProcessState.exited code)
  | Termination.signaled sig => WaitErr.exitError (ProcessState.signaled sig)
  | Termination.waitFailed => WaitErr.other

/-- Exit status the operating system reports for `os.Exit(code)`: the low
eight bits of `code`. -/
def exitStatus (code : Int) : Nat :=
  (code % 256).toNat

end Go

/-! ## `main.go`: overload the env files, restore the original environment,
replace the process -/

namespace MainGo

open Go

/-- The method `(*stringArray).Set`: append the value. -/
def stringArray.Set (i : List String) (value : String) : List String :=
  i ++ [value]

/-- What `flag.Parse` does with the occurrences of `-e`, in command line
order: `Set` is called once for each. -/
def parseEnvPaths (occurrences : List String) : List String :=
  occurrences.foldl stringArray.Set []

/-- The default of lines 65-67: `.env` when no `-e` was given. -/
def defaultEnvPaths (envPaths : List String) : List String :=
  if envPaths.length = 0 then envPaths ++ [".env"] else envPaths

/-- The loop of lines 76-85 over `envPaths`: a path that `os.Stat` finds is
overloaded, and a failure of `godotenv.Overload` is fatal (the error value is
the path named by `log.Fatalf`); a path that `os.Stat` does not find is
skipped. -/
def loadEnvPaths (fsys : FileSystem) : List String → List String → Except String (List String)
  | [], envs => Except.ok envs
  | envPath :: rest, envs =>
    if Stat fsys envPath then
      match Overload fsys envs envPath with
      | Except.error _ => Except.error envPath
      | Except.ok envs1 => loadEnvPaths fsys rest envs1
    else loadEnvPaths fsys rest envs

/-- The loop of lines 88-93 over the snapshot `originalEnv`: every line that
`strings.SplitN(envLine, "=", 2)` cuts in two parts is set again. -/
def restoreOriginal (originalEnv : List String) (envs : List String) : List String :=
  originalEnv.foldl
    (fun e envLine =>
      let parts := SplitN2 envLine
      if parts.length = 2 then setenvIgnore e (parts.getD 0 "") (parts.getD 1 "") else e)
    envs

/-- Lines 74-93: snapshot, overload every env file, restore the snapshot.
The result is the slice `envs` after the restore, or the path of the file
whose parse failure ended the program. -/
def compose (fsys : FileSystem) (envPaths : List String) (envs : List String) :
    Except String (List String) :=
  let originalEnv := Environ envs
  match loadEnvPaths fsys envPaths envs with
  | Except.error envPath => Except.error envPath
  | Except.ok envs1 => Except.ok (restoreOriginal originalEnv envs1)

/-- What the program is run in: the environment block it is started with,
the file system, and the answers of `exec.LookPath`, `filepath.Abs`,
`os.Chdir` and `syscall.Exec`. -/
structure OS where
  envp : List String
  fsys : FileSystem
  lookPath : String → Option String
  abs : String → Option String
  chdir : String → Bool
  exec : String → List String → List String → Bool

/-- How a run of `main` ends. -/
inductive Outcome where
  /-- No command given: usage text, `os.Exit(1)`. -/
  | usage
  /-- An env file failed to parse: `log.Fatalf`. -/
  | fatalParse (envPath : String)
  /-- The command was not found: `log.Fatalf`. -/
  | commandNotFound (cmdName : String)
  /-- The absolute path could not be resolved: `log.Fatalf`. -/
  | absFailed
  /-- The directory change failed: `log.Fatalf`. -/
  | chdirFailed (workDir : String)
  /-- The call `syscall.Exec` failed: `log.Fatalf`. -/
  | execFailed
  /-- The process image was replaced by `binary`, run with `argv` and `env`. -/
  | replaced (binary : String) (argv : List String) (env : List String)
  deriving DecidableEq, Repr

/-- The function `main` of `main.go`, on the `-e` occurrences, the value of
`-d` and the arguments left after the flags. -/
def main (os : OS) (eFlags : List String) (workDir : String) (args : List String) : Outcome :=
  let envPaths := parseEnvPaths eFlags
  if args.length = 0 then Outcome.usage
  else
    let envPaths := defaultEnvPaths envPaths
    match compose os.fsys envPaths (initialEnvs os.envp) with
    | Except.error envPath => Outcome.fatalParse envPath
    | Except.ok envs =>
      let cmdName := args.getD 0 ""
      let cmdArgs := args
      match os.lookPath cmdName with
      | none => Outcome.commandNotFound cmdName
      | some binary =>
        match os.abs binary with
        | none => Outcome.absFailed
        | some binary =>
          if workDir != "" && !(os.chdir workDir) then Outcome.chdirFailed workDir
          else
            let env := Environ envs
            if os.exec binary cmdArgs env then Outcome.replaced binary cmdArgs env
            else Outcome.execFailed

/-- The environment handed to the command, when the process image is
replaced. -/
def Outcome.env : Outcome → Option (List String)
  | Outcome.replaced _ _ env => some env
  | _ => none

end MainGo

/-! ## `env_run.go`: load one env file without overriding, run the command
as a supervised child -/

namespace EnvRunGo

open Go

/-- What `flag.Parse` does with the occurrences of `-e` for the string flag
`flag.String("e", ".env", ...)`: the default, overwritten by each occurrence. -/
def parseEnvPath (occurrences : List String) : String :=
  occurrences.foldl (fun _ value => value) ".env"

/-- Lines 52-60: an env file that `os.Stat` finds is loaded with
`godotenv.Load`, and a failure is fatal (the error value is the path named by
`log.Fatalf`); a file that `os.Stat` does not find is skipped. -/
def loadEnvPath (fsys : FileSystem) (envPath : String) (envs : List String) :
    Except String (List String) :=
  if Stat fsys envPath then
    match Load fsys envs envPath with
    | Except.error _ => Except.error envPath
    | Except.ok envs1 => Except.ok envs1
  else Except.ok envs

/-- The command value `cmd` at the time of `cmd.Start()`. -/
structure Cmd where
  name : String
  args : List String
  dir : String
  env : List String
  deriving DecidableEq, Repr

/-- What the program is run in: the environment block it is started with,
the file system, whether `cmd.Start()` succeeds and how the started child
ends. -/
structure OS where
  envp : List String
  fsys : FileSystem
  start : Cmd → Bool
  run : Cmd → Termination

/-- Lines 98-104: the code the parent exits with after `err := cmd.Wait()`.
With a `nil` error `main` returns, which is exit code 0. -/
def exitCodeAfterWait (err : WaitErr) : Int :=
  match err with
  | WaitErr.nil => 0
  | WaitErr.exitError exitErr => exitErr.ExitCode
  | WaitErr.other => 1

/-- How a run of `main` ends. -/
inductive Outcome where
  /-- No command given: usage text, `os.Exit(1)`. -/
  | usage
  /-- The env file failed to parse: `log.Fatalf`. -/
  | fatalParse (envPath : String)
  /-- The child could not be started: `log.Fatalf`. -/
  | fatalStart (cmd : Cmd)
  /-- The child `cmd` was started and waited for; the parent ended with the
  given code. -/
  | waited (cmd : Cmd) (code : Int)
  deriving DecidableEq, Repr

/-- The function `main` of `env_run.go`, on the `-e` occurrences, the value
of `-d` and the arguments left after the flags. -/
def main (os : OS) (eFlags : List String) (workDir : String) (args : List String) : Outcome :=
  let envPath := parseEnvPath eFlags
  if args.length = 0 then Outcome.usage
  else
    match loadEnvPath os.fsys envPath (initialEnvs os.envp) with
    | Except.error p => Outcome.fatalParse p
    | Except.ok envs =>
      let cmdName := args.getD 0 ""
      let cmdArgs := args.drop 1
      let cmd : Cmd :=
        { name := cmdName, args := cmdArgs, dir := workDir, env := Environ envs }
      if os.start cmd then Outcome.waited cmd (exitCodeAfterWait (Wait (os.run cmd)))
      else Outcome.fatalStart cmd

/-- The child that was started, if any. -/
def Outcome.child : Outcome → Option Cmd
  | Outcome.waited cmd _ => some cmd
  | _ => none

/-- Exit status of the parent process: `os.Exit(1)` for the usage error and
for `log.Fatalf`, the code computed after the wait otherwise. -/
def Outcome.status : Outcome → Nat
  | Outcome.usage => exitStatus 1
  | Outcome.fatalParse _ => exitStatus 1
  | Outcome.fatalStart _ => exitStatus 1
  | Outcome.waited _ code => exitStatus code

/-- Exit status of the parent when the started child ends with `t`. -/
def parentStatus (t : Termination) : Nat :=
  exitStatus (exitCodeAfterWait (Wait t))

/-! ### Signal forwarding -/

/-- The signals registered with `signal.Notify`. -/
inductive Signal where
  | SIGINT
  | SIGTERM
  | SIGHUP
  deriving DecidableEq, Repr

/-- The handle `cmd.Process`: the process id, and whether the process has
already been waited for. -/
structure Process where
  pid : Nat
  done : Bool
  deriving DecidableEq, Repr

/-- Model of `(*os.Process).Signal`: an error for a process that is already
finished, otherwise the signal is sent to the process id. -/
def Process.Signal (p : Process) (sig : Signal) : Except String (Nat × Signal) :=
  if p.done then Except.error "os: process already finished"
  else Except.ok (p.pid, sig)

/-- Body of the loop of lines 85-89 for one received signal, on the value of
`cmd.Process` at that time: the signals sent by it. -/
def forward (cmdProcess : Option Process) (sig : Signal) : List (Nat × Signal) :=
  match cmdProcess with
  | none => []
  | some p =>
    match p.Signal sig with
    | Except.ok sent => [sent]
    | Except.error _ => []

/-- The loop `for sig := range sigs` of lines 84-90 over the signals received,
each with the value of `cmd.Process` when it is handled: all signals sent. -/
def forwardAll : List (Signal × Option Process) → List (Nat × Signal)
  | [] => []
  | (sig, cmdProcess) :: rest => forward cmdProcess sig ++ forwardAll rest

end EnvRunGo

/-! ## Reading the composed environment -/

namespace Go

/-- Whether `os.Setenv(key, value)` succeeds: the key is not empty and holds
neither `=` nor NUL, the value holds no NUL. -/
def settable (key value : String) : Bool :=
  key.data.length != 0 && !(key.data.any (fun c => c == '=' || c == NUL))
    && !(value.data.any (fun c => c == NUL))

/-- The pairs of a parsed env file that `os.Setenv` accepts. -/
def legalPairs (m : EnvMap) : EnvMap :=
  m.filter (fun kv => settable kv.1 kv.2)

/-- The value a parsed env file gives to `k`: the value of its pair for `k`
(a Go map has one pair for a key at most; of several pairs in the list the
one visited last counts). -/
def mapGet (m : EnvMap) (k : String) : Option String :=
  m.foldl (fun acc kv => if kv.1 = k then some kv.2 else acc) none

/-- The value the file at a path gives to `k`, `none` when the file is absent,
unparsable or has no pair for `k`. -/
def fileGet (fsys : FileSystem) (k : String) (path : String) : Option String :=
  match fsys path with
  | FileState.parsed m => mapGet m k
  | _ => none

/-- The value given to `k` by the highest-indexed file of the list that
defines `k`. -/
def lastDefined (fsys : FileSystem) (k : String) (paths : List String) : Option String :=
  paths.reverse.findSome? (fileGet fsys k)

/-- The value a parsed env file gives to `k` with a pair that `os.Setenv`
accepts: the value of its pair for `k`, when the key is not empty and holds
neither `=` nor NUL and the value holds no NUL. -/
def legalGet (m : EnvMap) (k : String) : Option String :=
  mapGet (legalPairs m) k

/-- The value the file at a path gives to `k` with a pair that `os.Setenv`
accepts, `none` when the file is absent, unparsable or has no such pair. -/
def fileGetLegal (fsys : FileSystem) (k : String) (path : String) : Option String :=
  match fsys path with
  | FileState.parsed m => legalGet m k
  | _ => none

/-- The value given to `k` by the highest-indexed file of the list that
defines `k` with a pair that `os.Setenv` accepts. -/
def lastDefinedLegal (fsys : FileSystem) (k : String) (paths : List String) : Option String :=
  paths.reverse.findSome? (fileGetLegal fsys k)

/-- The names of an environment: for every entry the text before its first
`=` (all of it when it has no `=`). -/
def envNames (env : List String) : List String :=
  env.map SplitHead

/-- The first of two optional values that is present. -/
def firstSome (a b : Option String) : Option String :=
  match a with
  | some v => some v
  | none => b

/-- The pairs of `m` that pass `cond`, laid over `init` for the key `k`. -/
def overlay (cond : String × String → Bool) (k : String) (m : EnvMap)
    (init : Option String) : Option String :=
  m.foldl (fun acc kv => if cond kv && kv.1 == k then some kv.2 else acc) init

/-- The settable pairs of the parsed files of `paths`, laid over `init` for
the key `k`, in the order of the list. -/
def filesOverlay (fsys : FileSystem) (k : String) : List String → Option String → Option String
  | [], init => init
  | p :: rest, init =>
    match fsys p with
    | FileState.parsed m =>
      filesOverlay fsys k rest (overlay (fun kv => settable kv.1 kv.2) k m init)
    | _ => filesOverlay fsys k rest init

/-- The keys under which the entries of `envs` are indexed. -/
def keysOf (envs : List String) : List String :=
  envs.filterMap entryKey

/-- The state of the environment that `copyenv` sets up and `os.Setenv`
keeps: no key is indexed twice and no entry holds a NUL. -/
def EnvOK (envs : List String) : Prop :=
  (keysOf envs).Nodup ∧ ∀ e ∈ envs, NUL ∉ e.data


/-- The file at a path exists and parses. -/
def isParsed (fsys : FileSystem) (path : String) : Bool :=
  match fsys path with
  | FileState.parsed _ => true
  | _ => false

/-- The entry has the form `NAME=VALUE`. -/
def hasNameValue (e : String) : Bool :=
  (entryKV e).isSome

/-- The entry has the form `NAME=VALUE` with a non-empty `NAME`. -/
def hasNonEmptyName (e : String) : Bool :=
  match entryKV e with
  | some (k, _) => k != ""
  | none => false

end Go

/-! ## Sample runs -/

namespace Sample

open Go

/-- A file system with two env files that both define `FOO`, one broken env
file and nothing else. -/
def fsys : FileSystem := fun path =>
  if path = "first.env" then FileState.parsed [("FOO", "one"), ("BAR", "one")]
  else if path = "second.env" then FileState.parsed [("FOO", "two")]
  else if path = "broken.env" then FileState.unparsable
  else FileState.absent

/-- A run of `main.go` in a shell that sets `BAR`, where every command is
found and the replacement succeeds. -/
def osB : MainGo.OS where
  envp := ["BAR=shell", "HOME=/root"]
  fsys := fsys
  lookPath := fun c => some ("/usr/bin/" ++ c)
  abs := fun b => some b
  chdir := fun _ => true
  exec := fun _ _ _ => true

/-- A run of `env_run.go` in a shell that sets `BAR`, where the child starts
and ends as `t`. -/
def osA (t : Termination) : EnvRunGo.OS where
  envp := ["BAR=shell", "HOME=/root"]
  fsys := fsys
  start := fun _ => true
  run := fun _ => t

/-- The file system `fsys` with one more env file, which parses and gives to
`FOO` a value that holds a NUL byte. -/
def fsysNul : FileSystem := fun path =>
  if path = "nul.env" then
    FileState.parsed [("FOO", String.mk ['a', NUL, 'b']), ("OK", "fine")]
  else fsys path

/-- The run `osB` on the file system `fsysNul`. -/
def osBNul : MainGo.OS where
  envp := ["BAR=shell", "HOME=/root"]
  fsys := fsysNul
  lookPath := fun c => some ("/usr/bin/" ++ c)
  abs := fun b => some b
  chdir := fun _ => true
  exec := fun _ _ _ => true

/-- A run of `env_run.go` on the file system `fsysNul`, started with the
environment block `envp`, where the child starts and exits with status 0. -/
def osAWith (envp : List String) : EnvRunGo.OS where
  envp := envp
  fsys := fsysNul
  start := fun _ => true
  run := fun _ => Termination.exited 0

end Sample

/-! ## Lemmas

### Cutting entries, and when `os.Setenv` succeeds -/

namespace Go

theorem cutEq_append {a : List Char} (b : List Char) (h : '=' ∉ a) :
    cutEq (a ++ '=' :: b) = some (a, b) := by
  induction a with
  | nil => simp [cutEq]
  | cons c cs ih =>
    have hc : c ≠ '=' := by
      intro h1
      exact h (by simp [h1])
    have hcs : '=' ∉ cs := by
      intro h1
      exact h (by simp [h1])
    simp [cutEq, hc, ih hcs]

theorem cutEq_some {cs a b : List Char} (h : cutEq cs = some (a, b)) :
    cs = a ++ '=' :: b ∧ '=' ∉ a := by
  induction cs generalizing a with
  | nil => simp [cutEq] at h
  | cons c cs ih =>
    unfold cutEq at h
    by_cases hc : c = '='
    · simp [hc] at h
      obtain ⟨h1, h2⟩ := h
      subst h1 h2
      simp [hc]
    · simp only [hc, if_false] at h
      cases hcut : cutEq cs with
      | none => simp [hcut] at h
      | some p =>
        obtain ⟨a1, b1⟩ := p
        simp [hcut] at h
        obtain ⟨h1, h2⟩ := h
        subst h1 h2
        obtain ⟨e1, e2⟩ := ih hcut
        refine ⟨by simp [← e1], ?_⟩
        intro hm
        rcases List.mem_cons.mp hm with h3 | h3
        · exact hc h3.symm
        · exact e2 h3

theorem Setenv_eq (envs : List String) (key value : String) :
    Setenv envs key value =
      if settable key value then Except.ok (setEntry key (key ++ "=" ++ value) envs)
      else Except.error Errno.EINVAL := by
  unfold Setenv settable
  by_cases h1 : key.data.length = 0
  · simp [h1]
  · by_cases h2 : key.data.any (fun c => c == '=' || c == NUL) = true
    · simp [h1, h2]
    · by_cases h3 : value.data.any (fun c => c == NUL) = true
      · simp [h1, h2, h3]
      · simp [h1, h2, h3]

theorem setenvIgnore_eq (envs : List String) (key value : String) :
    setenvIgnore envs key value =
      if settable key value then setEntry key (key ++ "=" ++ value) envs else envs := by
  unfold setenvIgnore
  rw [Setenv_eq]
  by_cases h : settable key value = true <;> simp [h]

theorem settable_spec {key value : String} (h : settable key value = true) :
    key ≠ "" ∧ '=' ∉ key.data ∧ NUL ∉ key.data ∧ NUL ∉ value.data := by
  unfold settable at h
  simp only [Bool.and_eq_true, Bool.not_eq_true', bne_iff_ne, ne_eq] at h
  obtain ⟨⟨h1, h2⟩, h3⟩ := h
  have h2a : ∀ c ∈ key.data, ¬ (c = '=' ∨ c = NUL) := by
    intro c hc hcc
    have : key.data.any (fun c => c == '=' || c == NUL) = true := by
      rw [List.any_eq_true]
      exact ⟨c, hc, by simpa using hcc⟩
    rw [h2] at this
    exact Bool.false_ne_true this
  have h3a : ∀ c ∈ value.data, ¬ (c = NUL) := by
    intro c hc hcc
    have : value.data.any (fun c => c == NUL) = true := by
      rw [List.any_eq_true]
      exact ⟨c, hc, by simpa using hcc⟩
    rw [h3] at this
    exact Bool.false_ne_true this
  refine ⟨?_, ?_, ?_, ?_⟩
  · intro hk
    apply h1
    rw [hk]
    rfl
  · intro hm
    exact h2a _ hm (Or.inl rfl)
  · intro hm
    exact h2a _ hm (Or.inr rfl)
  · intro hm
    exact h3a _ hm rfl

theorem settable_of {key value : String} (h1 : key ≠ "") (h2 : '=' ∉ key.data)
    (h3 : NUL ∉ key.data) (h4 : NUL ∉ value.data) : settable key value = true := by
  unfold settable
  simp only [Bool.and_eq_true, Bool.not_eq_true', bne_iff_ne, ne_eq]
  refine ⟨⟨?_, ?_⟩, ?_⟩
  · intro hl
    apply h1
    have : key.data = [] := List.length_eq_zero.mp hl
    cases key
    simp_all
  · rw [← Bool.not_eq_true, List.any_eq_true]
    rintro ⟨c, hc, hcc⟩
    simp only [Bool.or_eq_true, beq_iff_eq] at hcc
    rcases hcc with rfl | rfl
    · exact h2 hc
    · exact h3 hc
  · rw [← Bool.not_eq_true, List.any_eq_true]
    rintro ⟨c, hc, hcc⟩
    simp only [beq_iff_eq] at hcc
    subst hcc
    exact h4 hc

theorem entryKV_entry (key value : String) (h : '=' ∉ key.data) :
    entryKV (key ++ "=" ++ value) = some (key, value) := by
  unfold entryKV
  have hd : (key ++ "=" ++ value).data = key.data ++ '=' :: value.data := by
    simp [String.data_append]
  rw [hd, cutEq_append _ h]

theorem entryKV_empty : entryKV "" = none := by
  decide

theorem entryKV_some {s k v : String} (h : entryKV s = some (k, v)) :
    s.data = k.data ++ '=' :: v.data ∧ '=' ∉ k.data := by
  unfold entryKV at h
  cases hc : cutEq s.data with
  | none => simp [hc] at h
  | some p =>
    obtain ⟨a, b⟩ := p
    simp [hc] at h
    obtain ⟨h1, h2⟩ := h
    subst h1 h2
    exact cutEq_some hc

theorem entryKey_eq_some {s k : String} :
    entryKey s = some k ↔ ∃ v, entryKV s = some (k, v) := by
  unfold entryKey
  cases h : entryKV s with
  | none => simp
  | some p =>
    obtain ⟨k1, v1⟩ := p
    simp

theorem entryKey_eq_none {s : String} : entryKey s = none ↔ entryKV s = none := by
  unfold entryKey
  cases h : entryKV s with
  | none => simp
  | some p =>
    obtain ⟨k1, v1⟩ := p
    simp

end Go

/-! ### Looking a key up after `os.Setenv` -/

namespace Go

theorem lookupEnv_setEntry (k key kv v : String) (envs : List String)
    (h : entryKV kv = some (key, v)) :
    lookupEnv k (setEntry key kv envs) = if key = k then some v else lookupEnv k envs := by
  induction envs with
  | nil => simp [setEntry, lookupEnv, h]
  | cons s rest ih =>
    unfold setEntry
    by_cases hs : entryKey s = some key
    · simp only [hs, if_true]
      obtain ⟨v1, hv1⟩ := entryKey_eq_some.mp hs
      by_cases hk : key = k <;> simp [lookupEnv, h, hv1, hk]
    · simp only [hs, if_false]
      cases hkv : entryKV s with
      | none => simp [lookupEnv, hkv, ih]
      | some p =>
        obtain ⟨k1, v1⟩ := p
        have hne : k1 ≠ key := by
          intro he
          apply hs
          rw [entryKey_eq_some]
          exact ⟨v1, by rw [hkv, he]⟩
        by_cases hk : k1 = k
        · have hk2 : ¬ key = k := by
            intro he
            exact hne (hk.trans he.symm)
          simp [lookupEnv, hkv, hk, hk2]
        · simp [lookupEnv, hkv, hk, ih]

theorem lookupEnv_setenvIgnore (k key v : String) (envs : List String) :
    lookupEnv k (setenvIgnore envs key v) =
      if (settable key v && key == k) = true then some v else lookupEnv k envs := by
  rw [setenvIgnore_eq]
  by_cases hs : settable key v = true
  · have h1 := (settable_spec hs).2.1
    simp only [hs, if_true, Bool.true_and, beq_iff_eq]
    exact lookupEnv_setEntry k key _ v envs (entryKV_entry key v h1)
  · simp [hs]

theorem lookupEnv_Environ (k : String) (envs : List String) :
    lookupEnv k (Environ envs) = lookupEnv k envs := by
  unfold Environ
  induction envs with
  | nil => rfl
  | cons s rest ih =>
    by_cases hs : s = ""
    · subst hs
      simp [List.filter, lookupEnv, entryKV_empty, ih]
    · have h1 : (s != "") = true := by simpa using hs
      simp only [List.filter, h1, lookupEnv]
      rw [ih]

theorem lookupEnv_foldl (c : String × String → Bool) (k : String) (m : EnvMap)
    (envs : List String) :
    lookupEnv k (m.foldl (fun e kv => if c kv = true then setenvIgnore e kv.1 kv.2 else e) envs)
      = overlay (fun kv => c kv && settable kv.1 kv.2) k m (lookupEnv k envs) := by
  induction m generalizing envs with
  | nil => rfl
  | cons kv rest ih =>
    simp only [List.foldl_cons, overlay]
    rw [ih]
    unfold overlay
    congr 1
    by_cases hc : c kv = true
    · simp only [hc, if_true, Bool.true_and]
      rw [lookupEnv_setenvIgnore]
    · simp [hc]

theorem overlay_cons (cond : String × String → Bool) (k : String) (kv : String × String)
    (m : EnvMap) (init : Option String) :
    overlay cond k (kv :: m) init =
      overlay cond k m (if (cond kv && kv.1 == k) = true then some kv.2 else init) := by
  rfl

theorem overlay_firstSome (cond : String × String → Bool) (k : String) (m : EnvMap)
    (init : Option String) :
    overlay cond k m init = firstSome (overlay cond k m none) init := by
  induction m generalizing init with
  | nil => rfl
  | cons kv rest ih =>
    rw [overlay_cons, overlay_cons, ih]
    by_cases h : (cond kv && kv.1 == k) = true
    · simp only [h, if_true]
      rw [ih (some kv.2)]
      cases overlay cond k rest none <;> rfl
    · simp only [h]
      rfl

theorem firstSome_some (v : String) (b : Option String) : firstSome (some v) b = some v := rfl

theorem firstSome_none (b : Option String) : firstSome none b = b := rfl

theorem firstSome_assoc (a b c : Option String) :
    firstSome (firstSome a b) c = firstSome a (firstSome b c) := by
  cases a <;> rfl

theorem overlay_none_of (cond : String × String → Bool) (k : String) (m : EnvMap)
    (init : Option String) (h : ∀ kv ∈ m, kv.1 = k → cond kv = false) :
    overlay cond k m init = init := by
  induction m generalizing init with
  | nil => rfl
  | cons kv rest ih =>
    rw [overlay_cons]
    have h1 : (cond kv && kv.1 == k) = false := by
      by_cases hk : kv.1 = k
      · simp [h kv (List.mem_cons_self _ _) hk]
      · simp [hk]
    simp only [h1]
    exact ih _ (fun kv1 hm => h kv1 (List.mem_cons_of_mem _ hm))

theorem overlay_congr (c1 c2 : String × String → Bool) (k : String) (m : EnvMap)
    (init : Option String) (h : ∀ kv ∈ m, kv.1 = k → c1 kv = c2 kv) :
    overlay c1 k m init = overlay c2 k m init := by
  induction m generalizing init with
  | nil => rfl
  | cons kv rest ih =>
    rw [overlay_cons, overlay_cons]
    have h1 : (c1 kv && kv.1 == k) = (c2 kv && kv.1 == k) := by
      by_cases hk : kv.1 = k
      · rw [h kv (List.mem_cons_self _ _) hk]
      · have hk1 : (kv.1 == k) = false := by simpa using hk
        rw [hk1, Bool.and_false, Bool.and_false]
    rw [h1]
    exact ih _ (fun kv1 hm => h kv1 (List.mem_cons_of_mem _ hm))

theorem overlay_eq_filter (cond : String × String → Bool) (k : String) (m : EnvMap)
    (init : Option String) :
    overlay cond k m init =
      (m.filter cond).foldl (fun acc kv => if kv.1 = k then some kv.2 else acc) init := by
  induction m generalizing init with
  | nil => rfl
  | cons kv rest ih =>
    rw [overlay_cons, ih]
    by_cases hc : cond kv = true
    · rw [List.filter_cons_of_pos hc, List.foldl_cons]
      simp [hc]
    · rw [List.filter_cons_of_neg hc]
      simp [hc]

theorem overlay_settable_eq_legalGet (k : String) (m : EnvMap) :
    overlay (fun kv => settable kv.1 kv.2) k m none = legalGet m k :=
  overlay_eq_filter _ k m none

theorem mapGet_concat (m : EnvMap) (kv : String × String) (k : String) :
    mapGet (m ++ [kv]) k = if kv.1 = k then some kv.2 else mapGet m k := by
  unfold mapGet
  rw [List.foldl_append]
  rfl

theorem legalGet_concat (m : EnvMap) (kv : String × String) (k : String) :
    legalGet (m ++ [kv]) k =
      if (settable kv.1 kv.2 = true ∧ kv.1 = k) then some kv.2 else legalGet m k := by
  unfold legalGet legalPairs
  rw [List.filter_append]
  by_cases hs : settable kv.1 kv.2 = true
  · have h1 : List.filter (fun kv => settable kv.1 kv.2) [kv] = [kv] := by
      simp [List.filter, hs]
    rw [h1, mapGet_concat]
    simp [hs]
  · have h1 : List.filter (fun kv => settable kv.1 kv.2) [kv] = [] := by
      simp [List.filter, hs]
    rw [h1, List.append_nil]
    simp [hs]

theorem legalGet_of_mapGet {m : EnvMap} {k v : String} (h : mapGet m k = some v)
    (hs : settable k v = true) : legalGet m k = some v := by
  induction m using List.reverseRecOn with
  | nil => simp [mapGet] at h
  | append_singleton m kv ih =>
    rw [mapGet_concat] at h
    rw [legalGet_concat]
    by_cases hk : kv.1 = k
    · simp only [hk, if_true, Option.some.injEq] at h
      rw [hk, h]
      simp [hs]
    · simp only [hk, if_false] at h
      simp only [hk, and_false, if_false]
      exact ih h

end Go

/-! ### The loops of `godotenv` and of `main.go` -/

namespace Go

theorem loadFile_parsed (fsys : FileSystem) (envs : List String) (filename : String)
    (overload : Bool) (m : EnvMap) (h : fsys filename = FileState.parsed m) :
    loadFile fsys envs filename overload =
      Except.ok (m.foldl
        (fun e kv =>
          if (!((envNames (Environ envs)).contains kv.1) || overload) = true
          then setenvIgnore e kv.1 kv.2 else e)
        envs) := by
  simp [loadFile, readFile, h, envNames]

theorem loadFile_unparsable (fsys : FileSystem) (envs : List String) (filename : String)
    (overload : Bool) (h : fsys filename = FileState.unparsable) :
    ∃ err, loadFile fsys envs filename overload = Except.error err := by
  simp [loadFile, readFile, h]

theorem Stat_eq_false {fsys : FileSystem} {path : String} :
    Stat fsys path = false ↔ fsys path = FileState.absent := by
  unfold Stat
  cases h : fsys path <;> simp

theorem lookupEnv_Overload (fsys : FileSystem) (envs envs1 : List String) (filename : String)
    (m : EnvMap) (k : String) (h : fsys filename = FileState.parsed m)
    (h1 : Overload fsys envs filename = Except.ok envs1) :
    lookupEnv k envs1 = overlay (fun kv => settable kv.1 kv.2) k m (lookupEnv k envs) := by
  unfold Overload at h1
  rw [loadFile_parsed fsys envs filename true m h] at h1
  injection h1 with h1
  rw [← h1, lookupEnv_foldl]
  apply overlay_congr
  intro kv _ _
  simp

theorem lookupEnv_Load (fsys : FileSystem) (envs envs1 : List String) (filename : String)
    (m : EnvMap) (k : String) (h : fsys filename = FileState.parsed m)
    (h1 : Load fsys envs filename = Except.ok envs1) :
    lookupEnv k envs1 =
      overlay (fun kv => !((envNames (Environ envs)).contains kv.1) && settable kv.1 kv.2) k m
        (lookupEnv k envs) := by
  unfold Load at h1
  rw [loadFile_parsed fsys envs filename false m h] at h1
  injection h1 with h1
  rw [← h1, lookupEnv_foldl]
  apply overlay_congr
  intro kv _ _
  simp

end Go

namespace MainGo

open Go

theorem parseEnvPaths_eq (occurrences : List String) : parseEnvPaths occurrences = occurrences := by
  unfold parseEnvPaths
  have h : ∀ (acc l : List String), List.foldl stringArray.Set acc l = acc ++ l := by
    intro acc l
    induction l generalizing acc with
    | nil => simp
    | cons x xs ih => simp [List.foldl_cons, stringArray.Set, ih]
  simpa using h [] occurrences

theorem loadEnvPaths_cons_absent (fsys : FileSystem) (p : String) (rest envs : List String)
    (h : fsys p = FileState.absent) :
    loadEnvPaths fsys (p :: rest) envs = loadEnvPaths fsys rest envs := by
  simp [loadEnvPaths, Stat_eq_false.mpr h]

theorem loadEnvPaths_cons_parsed (fsys : FileSystem) (p : String) (rest envs : List String)
    (m : EnvMap) (h : fsys p = FileState.parsed m) :
    ∃ envs1, Overload fsys envs p = Except.ok envs1 ∧
      loadEnvPaths fsys (p :: rest) envs = loadEnvPaths fsys rest envs1 := by
  have hs : Stat fsys p = true := by simp [Stat, h]
  have ho := loadFile_parsed fsys envs p true m h
  refine ⟨_, ho, ?_⟩
  simp only [loadEnvPaths, hs, if_true, Overload, ho]

theorem loadEnvPaths_cons_unparsable (fsys : FileSystem) (p : String) (rest envs : List String)
    (h : fsys p = FileState.unparsable) :
    loadEnvPaths fsys (p :: rest) envs = Except.error p := by
  have hs : Stat fsys p = true := by simp [Stat, h]
  obtain ⟨err, he⟩ := loadFile_unparsable fsys envs p true h
  simp only [loadEnvPaths, hs, if_true, Overload, he]

theorem lookupEnv_loadEnvPaths (fsys : FileSystem) (k : String) (paths envs envs1 : List String)
    (h : loadEnvPaths fsys paths envs = Except.ok envs1) :
    lookupEnv k envs1 = filesOverlay fsys k paths (lookupEnv k envs) := by
  induction paths generalizing envs with
  | nil =>
    simp only [loadEnvPaths] at h
    injection h with h
    rw [← h]
    rfl
  | cons p rest ih =>
    cases hp : fsys p with
    | absent =>
      rw [loadEnvPaths_cons_absent fsys p rest envs hp] at h
      simp only [filesOverlay, hp]
      exact ih envs h
    | unparsable =>
      rw [loadEnvPaths_cons_unparsable fsys p rest envs hp] at h
      cases h
    | parsed m =>
      obtain ⟨e1, ho, hl⟩ := loadEnvPaths_cons_parsed fsys p rest envs m hp
      rw [hl] at h
      simp only [filesOverlay, hp]
      rw [ih e1 h, lookupEnv_Overload fsys envs e1 p m k hp ho]

theorem loadEnvPaths_ok (fsys : FileSystem) (paths envs : List String)
    (h : ∀ p ∈ paths, fsys p ≠ FileState.unparsable) :
    ∃ envs1, loadEnvPaths fsys paths envs = Except.ok envs1 := by
  induction paths generalizing envs with
  | nil => exact ⟨envs, rfl⟩
  | cons p rest ih =>
    have hrest : ∀ q ∈ rest, fsys q ≠ FileState.unparsable :=
      fun q hq => h q (List.mem_cons_of_mem _ hq)
    cases hp : fsys p with
    | absent =>
      rw [loadEnvPaths_cons_absent fsys p rest envs hp]
      exact ih envs hrest
    | unparsable => exact absurd hp (h p (List.mem_cons_self _ _))
    | parsed m =>
      obtain ⟨e1, _, hl⟩ := loadEnvPaths_cons_parsed fsys p rest envs m hp
      rw [hl]
      exact ih e1 hrest

theorem loadEnvPaths_error (fsys : FileSystem) (paths envs : List String) (p : String)
    (hp : p ∈ paths) (h : fsys p = FileState.unparsable) :
    ∃ q, q ∈ paths ∧ fsys q = FileState.unparsable ∧
      loadEnvPaths fsys paths envs = Except.error q := by
  induction paths generalizing envs with
  | nil => cases hp
  | cons p1 rest ih =>
    cases hp1 : fsys p1 with
    | unparsable =>
      exact ⟨p1, List.mem_cons_self _ _, hp1, loadEnvPaths_cons_unparsable fsys p1 rest envs hp1⟩
    | absent =>
      have hm : p ∈ rest := by
        rcases List.mem_cons.mp hp with he | hm
        · rw [he, hp1] at h
          cases h
        · exact hm
      obtain ⟨q, hq1, hq2, hq3⟩ := ih envs hm
      exact ⟨q, List.mem_cons_of_mem _ hq1, hq2,
        by rw [loadEnvPaths_cons_absent fsys p1 rest envs hp1]; exact hq3⟩
    | parsed m =>
      have hm : p ∈ rest := by
        rcases List.mem_cons.mp hp with he | hm
        · rw [he, hp1] at h
          cases h
        · exact hm
      obtain ⟨e1, _, hl⟩ := loadEnvPaths_cons_parsed fsys p1 rest envs m hp1
      obtain ⟨q, hq1, hq2, hq3⟩ := ih e1 hm
      exact ⟨q, List.mem_cons_of_mem _ hq1, hq2, by rw [hl]; exact hq3⟩

theorem SplitN2_of_none {s : String} (h : entryKV s = none) : (SplitN2 s).length = 1 := by
  unfold entryKV at h
  unfold SplitN2
  cases hc : cutEq s.data with
  | none => rfl
  | some p =>
    obtain ⟨a, b⟩ := p
    simp [hc] at h

theorem SplitN2_of_some {s k v : String} (h : entryKV s = some (k, v)) : SplitN2 s = [k, v] := by
  unfold entryKV at h
  unfold SplitN2
  cases hc : cutEq s.data with
  | none => simp [hc] at h
  | some p =>
    obtain ⟨a, b⟩ := p
    simp [hc] at h
    simp [h]

theorem restoreOriginal_eq (originalEnv envs : List String) :
    restoreOriginal originalEnv envs =
      (originalEnv.filterMap entryKV).foldl
        (fun e kv => if (fun _ => true) kv = true then setenvIgnore e kv.1 kv.2 else e) envs := by
  unfold restoreOriginal
  induction originalEnv generalizing envs with
  | nil => rfl
  | cons s rest ih =>
    cases hs : entryKV s with
    | none =>
      have h1 := SplitN2_of_none hs
      simp only [List.foldl_cons, h1, List.filterMap_cons, hs]
      exact ih envs
    | some p =>
      obtain ⟨k1, v1⟩ := p
      have h1 := SplitN2_of_some hs
      simp only [List.foldl_cons, h1, List.filterMap_cons, hs]
      exact ih _

theorem lookupEnv_restoreOriginal (k : String) (originalEnv envs : List String) :
    lookupEnv k (restoreOriginal originalEnv envs) =
      overlay (fun kv => settable kv.1 kv.2) k (originalEnv.filterMap entryKV)
        (lookupEnv k envs) := by
  rw [restoreOriginal_eq, lookupEnv_foldl]
  apply overlay_congr
  intro kv _ _
  simp

end MainGo

/-! ### The state of the environment is kept well formed -/

namespace Go

theorem keysOf_cons (s : String) (rest : List String) :
    keysOf (s :: rest) =
      match entryKey s with
      | none => keysOf rest
      | some k => k :: keysOf rest := by
  unfold keysOf
  rw [List.filterMap_cons]
  cases entryKey s <;> rfl

theorem mem_keysOf_of_lookupEnv {k v : String} {envs : List String}
    (h : lookupEnv k envs = some v) : k ∈ keysOf envs := by
  induction envs with
  | nil => simp [lookupEnv] at h
  | cons s rest ih =>
    rw [keysOf_cons]
    cases hs : entryKV s with
    | none =>
      simp only [lookupEnv, hs] at h
      rw [entryKey_eq_none.mpr hs]
      exact ih h
    | some p =>
      obtain ⟨k1, v1⟩ := p
      have hk : entryKey s = some k1 := entryKey_eq_some.mpr ⟨v1, hs⟩
      rw [hk]
      simp only [lookupEnv, hs] at h
      by_cases hk1 : k1 = k
      · rw [hk1]
        exact List.mem_cons_self _ _
      · simp only [hk1, if_false] at h
        exact List.mem_cons_of_mem _ (ih h)

theorem lookupEnv_isSome_of_mem_keysOf {k : String} {envs : List String}
    (h : k ∈ keysOf envs) : ∃ v, lookupEnv k envs = some v := by
  induction envs with
  | nil => simp [keysOf] at h
  | cons s rest ih =>
    rw [keysOf_cons] at h
    cases hs : entryKV s with
    | none =>
      rw [entryKey_eq_none.mpr hs] at h
      simp only [lookupEnv, hs]
      exact ih h
    | some p =>
      obtain ⟨k1, v1⟩ := p
      have hk : entryKey s = some k1 := entryKey_eq_some.mpr ⟨v1, hs⟩
      rw [hk] at h
      simp only [lookupEnv, hs]
      by_cases hk1 : k1 = k
      · exact ⟨v1, by simp [hk1]⟩
      · simp only [hk1, if_false]
        rcases List.mem_cons.mp h with he | hm
        · exact absurd he.symm hk1
        · exact ih hm

theorem lookupEnv_eq_none_of_not_mem {k : String} {envs : List String}
    (h : k ∉ keysOf envs) : lookupEnv k envs = none := by
  cases hl : lookupEnv k envs with
  | none => rfl
  | some v => exact absurd (mem_keysOf_of_lookupEnv hl) h

theorem keysOf_Environ (envs : List String) : keysOf (Environ envs) = keysOf envs := by
  unfold Environ
  induction envs with
  | nil => rfl
  | cons s rest ih =>
    by_cases hs : s = ""
    · subst hs
      have hk : entryKey "" = none := by decide
      rw [keysOf_cons, hk]
      simp only [List.filter, bne_self_eq_false]
      exact ih
    · have h1 : (s != "") = true := by simpa using hs
      simp only [List.filter, h1]
      rw [keysOf_cons, keysOf_cons, ih]

theorem mem_Environ {e : String} {envs : List String} (h : e ∈ Environ envs) : e ∈ envs := by
  unfold Environ at h
  exact (List.mem_filter.mp h).1

theorem EnvOK_Environ {envs : List String} (h : EnvOK envs) : EnvOK (Environ envs) :=
  ⟨by rw [keysOf_Environ]; exact h.1, fun e he => h.2 e (mem_Environ he)⟩

theorem mem_keysOf_setEntry (k key kv : String) (envs : List String)
    (hkv : entryKey kv = some key) :
    k ∈ keysOf (setEntry key kv envs) ↔ k = key ∨ k ∈ keysOf envs := by
  induction envs with
  | nil => simp [setEntry, keysOf_cons, hkv, keysOf]
  | cons s rest ih =>
    unfold setEntry
    by_cases hs : entryKey s = some key
    · simp only [hs, if_true]
      rw [keysOf_cons, keysOf_cons, hkv, hs]
      simp
    · simp only [hs, if_false]
      rw [keysOf_cons, keysOf_cons]
      cases hk : entryKey s with
      | none => simpa using ih
      | some k1 =>
        simp only [List.mem_cons, ih]
        tauto

theorem nodup_keysOf_setEntry (key kv : String) (envs : List String)
    (hkv : entryKey kv = some key) (h : (keysOf envs).Nodup) :
    (keysOf (setEntry key kv envs)).Nodup := by
  induction envs with
  | nil => simp [setEntry, keysOf_cons, hkv, keysOf]
  | cons s rest ih =>
    unfold setEntry
    by_cases hs : entryKey s = some key
    · simp only [hs, if_true]
      rw [keysOf_cons, hs] at h
      rw [keysOf_cons, hkv]
      exact h
    · simp only [hs, if_false]
      rw [keysOf_cons] at h
      rw [keysOf_cons]
      cases hk : entryKey s with
      | none =>
        rw [hk] at h
        exact ih h
      | some k1 =>
        rw [hk] at h hs
        have hne : k1 ≠ key := fun he => hs (by rw [he])
        obtain ⟨h1, h2⟩ := List.nodup_cons.mp h
        apply List.nodup_cons.mpr
        refine ⟨?_, ih h2⟩
        rw [mem_keysOf_setEntry k1 key kv rest hkv]
        rintro (he | hm)
        · exact hne he
        · exact h1 hm

theorem mem_setEntry {e key kv : String} {envs : List String}
    (h : e ∈ setEntry key kv envs) : e = kv ∨ e ∈ envs := by
  induction envs with
  | nil =>
    simp only [setEntry, List.mem_singleton] at h
    exact Or.inl h
  | cons s rest ih =>
    unfold setEntry at h
    by_cases hs : entryKey s = some key
    · simp only [hs, if_true] at h
      rcases List.mem_cons.mp h with he | hm
      · exact Or.inl he
      · exact Or.inr (List.mem_cons_of_mem _ hm)
    · simp only [hs, if_false] at h
      rcases List.mem_cons.mp h with he | hm
      · exact Or.inr (by rw [he]; exact List.mem_cons_self _ _)
      · rcases ih hm with h1 | h1
        · exact Or.inl h1
        · exact Or.inr (List.mem_cons_of_mem _ h1)

theorem NUL_ne_eq : NUL ≠ '=' := by decide

theorem EnvOK_setenvIgnore {envs : List String} (key value : String) (h : EnvOK envs) :
    EnvOK (setenvIgnore envs key value) := by
  rw [setenvIgnore_eq]
  by_cases hs : settable key value = true
  · simp only [hs, if_true]
    obtain ⟨_, h2, h3, h4⟩ := settable_spec hs
    have hkv := entryKV_entry key value h2
    have hkey : entryKey (key ++ "=" ++ value) = some key := entryKey_eq_some.mpr ⟨value, hkv⟩
    refine ⟨nodup_keysOf_setEntry key _ envs hkey h.1, ?_⟩
    intro e he
    rcases mem_setEntry he with h5 | h5
    · rw [h5, (entryKV_some hkv).1]
      intro hm
      rcases List.mem_append.mp hm with h6 | h6
      · exact h3 h6
      · rcases List.mem_cons.mp h6 with h7 | h7
        · exact NUL_ne_eq h7
        · exact h4 h7
    · exact h.2 e h5
  · simp only [hs]
    exact h

theorem EnvOK_foldl (c : String × String → Bool) (m : EnvMap) {envs : List String}
    (h : EnvOK envs) :
    EnvOK (m.foldl (fun e kv => if c kv = true then setenvIgnore e kv.1 kv.2 else e) envs) := by
  induction m generalizing envs with
  | nil => exact h
  | cons kv rest ih =>
    rw [List.foldl_cons]
    apply ih
    by_cases hc : c kv = true
    · simp only [hc, if_true]
      exact EnvOK_setenvIgnore _ _ h
    · simp only [hc]
      exact h

theorem EnvOK_loadFile {fsys : FileSystem} {envs envs1 : List String} {filename : String}
    {overload : Bool} (h : EnvOK envs)
    (h1 : loadFile fsys envs filename overload = Except.ok envs1) : EnvOK envs1 := by
  cases hf : fsys filename with
  | absent => simp [loadFile, readFile, hf] at h1
  | unparsable => simp [loadFile, readFile, hf] at h1
  | parsed m =>
    rw [loadFile_parsed fsys envs filename overload m hf] at h1
    injection h1 with h1
    rw [← h1]
    exact EnvOK_foldl _ m h

theorem mem_copyenvFrom {e : String} {seen l : List String} (h : e ∈ copyenvFrom seen l) :
    e = "" ∨ e ∈ l := by
  induction l generalizing seen with
  | nil => simp [copyenvFrom] at h
  | cons s rest ih =>
    unfold copyenvFrom at h
    cases hk : entryKey s with
    | none =>
      simp only [hk] at h
      rcases List.mem_cons.mp h with he | hm
      · exact Or.inr (by rw [he]; exact List.mem_cons_self _ _)
      · rcases ih hm with h1 | h1
        · exact Or.inl h1
        · exact Or.inr (List.mem_cons_of_mem _ h1)
    | some key =>
      simp only [hk] at h
      by_cases hseen : key ∈ seen
      · simp only [hseen, if_true] at h
        rcases List.mem_cons.mp h with he | hm
        · exact Or.inl he
        · rcases ih hm with h1 | h1
          · exact Or.inl h1
          · exact Or.inr (List.mem_cons_of_mem _ h1)
      · simp only [hseen, if_false] at h
        rcases List.mem_cons.mp h with he | hm
        · exact Or.inr (by rw [he]; exact List.mem_cons_self _ _)
        · rcases ih hm with h1 | h1
          · exact Or.inl h1
          · exact Or.inr (List.mem_cons_of_mem _ h1)

theorem keysOf_copyenvFrom (seen l : List String) :
    (keysOf (copyenvFrom seen l)).Nodup ∧ ∀ k ∈ keysOf (copyenvFrom seen l), k ∉ seen := by
  have hempty : entryKey "" = none := by decide
  induction l generalizing seen with
  | nil => simp [copyenvFrom, keysOf]
  | cons s rest ih =>
    unfold copyenvFrom
    cases hk : entryKey s with
    | none =>
      simp only [hk]
      rw [keysOf_cons, hk]
      exact ih seen
    | some key =>
      simp only [hk]
      by_cases hseen : key ∈ seen
      · simp only [hseen, if_true]
        rw [keysOf_cons, hempty]
        exact ih seen
      · simp only [hseen, if_false]
        rw [keysOf_cons, hk]
        obtain ⟨h1, h2⟩ := ih (key :: seen)
        refine ⟨List.nodup_cons.mpr ⟨?_, h1⟩, ?_⟩
        · intro hm
          exact h2 key hm (List.mem_cons_self _ _)
        · intro k hm
          rcases List.mem_cons.mp hm with he | hm1
          · rw [he]
            exact hseen
          · intro hs
            exact h2 k hm1 (List.mem_cons_of_mem _ hs)

theorem NUL_not_mem_gostring (s : String) : NUL ∉ (gostring s).data := by
  unfold gostring
  intro hm
  have h := List.mem_takeWhile_imp hm
  simp at h

theorem EnvOK_initialEnvs (envp : List String) : EnvOK (initialEnvs envp) := by
  refine ⟨(keysOf_copyenvFrom [] (goenvs envp)).1, ?_⟩
  intro e he
  rcases mem_copyenvFrom he with h1 | h1
  · rw [h1]
    decide
  · unfold goenvs at h1
    obtain ⟨s, _, hs⟩ := List.mem_map.mp h1
    rw [← hs]
    exact NUL_not_mem_gostring s

end Go

/-! ### The composition of `main.go`, key by key -/

namespace Go

theorem EnvOK_tail {s : String} {rest : List String} (h : EnvOK (s :: rest)) : EnvOK rest := by
  obtain ⟨h1, h2⟩ := h
  refine ⟨?_, fun e he => h2 e (List.mem_cons_of_mem _ he)⟩
  rw [keysOf_cons] at h1
  cases hk : entryKey s with
  | none =>
    rw [hk] at h1
    exact h1
  | some k =>
    rw [hk] at h1
    exact (List.nodup_cons.mp h1).2

theorem settable_of_entry {s k v : String} (h : entryKV s = some (k, v)) (hk : k ≠ "")
    (hn : NUL ∉ s.data) : settable k v = true := by
  obtain ⟨h1, h2⟩ := entryKV_some h
  rw [h1] at hn
  apply settable_of hk h2
  · intro hm
    exact hn (List.mem_append_left _ hm)
  · intro hm
    exact hn (List.mem_append_right _ (List.mem_cons_of_mem _ hm))

theorem settable_empty_key (v : String) : settable "" v = false := by
  cases h : settable "" v with
  | false => rfl
  | true => exact absurd rfl (settable_spec h).1

theorem firstSome_none_right (a : Option String) : firstSome a none = a := by
  cases a <;> rfl

theorem firstSome_absorb (a b : Option String) :
    firstSome a (firstSome b a) = firstSome a b := by
  cases a <;> cases b <;> rfl

theorem overlay_original (k : String) (orig : List String) (init : Option String)
    (hk : k ≠ "") (h : EnvOK orig) :
    overlay (fun kv => settable kv.1 kv.2) k (orig.filterMap entryKV) init
      = firstSome (lookupEnv k orig) init := by
  induction orig generalizing init with
  | nil => rfl
  | cons s rest ih =>
    have hrest := EnvOK_tail h
    cases hs : entryKV s with
    | none =>
      rw [List.filterMap_cons, hs]
      simp only [lookupEnv, hs]
      exact ih init hrest
    | some p =>
      obtain ⟨k1, v1⟩ := p
      rw [List.filterMap_cons, hs]
      simp only [lookupEnv, hs]
      rw [overlay_cons, ih _ hrest]
      by_cases hk1 : k1 = k
      · subst hk1
        have hset : settable k1 v1 = true :=
          settable_of_entry hs hk (h.2 s (List.mem_cons_self _ _))
        have hnot : k1 ∉ keysOf rest := by
          have h1 := h.1
          rw [keysOf_cons, entryKey_eq_some.mpr ⟨v1, hs⟩] at h1
          exact (List.nodup_cons.mp h1).1
        rw [lookupEnv_eq_none_of_not_mem hnot]
        simp [hset, firstSome]
      · have hb : (k1 == k) = false := by simpa using hk1
        simp only [hb, Bool.and_false, hk1, if_false]
        rfl

theorem filesOverlay_firstSome (fsys : FileSystem) (k : String) (paths : List String)
    (init : Option String) :
    filesOverlay fsys k paths init = firstSome (filesOverlay fsys k paths none) init := by
  induction paths generalizing init with
  | nil => rfl
  | cons p rest ih =>
    cases hp : fsys p with
    | absent =>
      simp only [filesOverlay, hp]
      exact ih init
    | unparsable =>
      simp only [filesOverlay, hp]
      exact ih init
    | parsed m =>
      simp only [filesOverlay, hp]
      rw [ih, ih (overlay _ k m none), overlay_firstSome, firstSome_assoc]

theorem filesOverlay_empty_key (fsys : FileSystem) (paths : List String)
    (init : Option String) : filesOverlay fsys "" paths init = init := by
  induction paths generalizing init with
  | nil => rfl
  | cons p rest ih =>
    cases hp : fsys p with
    | absent =>
      simp only [filesOverlay, hp]
      exact ih init
    | unparsable =>
      simp only [filesOverlay, hp]
      exact ih init
    | parsed m =>
      simp only [filesOverlay, hp]
      rw [ih]
      apply overlay_none_of
      intro kv _ hkv
      rw [hkv]
      exact settable_empty_key kv.2

theorem findSome_append_firstSome (f : String → Option String) (l1 l2 : List String) :
    (l1 ++ l2).findSome? f = firstSome (l1.findSome? f) (l2.findSome? f) := by
  induction l1 with
  | nil => rfl
  | cons a rest ih =>
    rw [List.cons_append, List.findSome?_cons, List.findSome?_cons]
    cases f a with
    | none => exact ih
    | some v => rfl

theorem lastDefinedLegal_cons (fsys : FileSystem) (k p : String) (rest : List String) :
    lastDefinedLegal fsys k (p :: rest)
      = firstSome (lastDefinedLegal fsys k rest) (fileGetLegal fsys k p) := by
  unfold lastDefinedLegal
  rw [List.reverse_cons, findSome_append_firstSome]
  congr 1
  simp only [List.findSome?_cons, List.findSome?_nil]
  cases fileGetLegal fsys k p <;> rfl

theorem filesOverlay_eq_lastDefinedLegal (fsys : FileSystem) (k : String)
    (paths : List String) (init : Option String) :
    filesOverlay fsys k paths init = firstSome (lastDefinedLegal fsys k paths) init := by
  induction paths generalizing init with
  | nil => rfl
  | cons p rest ih =>
    rw [lastDefinedLegal_cons, firstSome_assoc]
    cases hp : fsys p with
    | absent =>
      simp only [filesOverlay, hp, fileGetLegal]
      exact ih init
    | unparsable =>
      simp only [filesOverlay, hp, fileGetLegal]
      exact ih init
    | parsed m =>
      simp only [filesOverlay, hp, fileGetLegal]
      rw [ih, overlay_firstSome, overlay_settable_eq_legalGet]

end Go

namespace MainGo

open Go

theorem EnvOK_loadEnvPaths {fsys : FileSystem} {paths envs envs1 : List String}
    (h : EnvOK envs) (h1 : loadEnvPaths fsys paths envs = Except.ok envs1) : EnvOK envs1 := by
  induction paths generalizing envs with
  | nil =>
    simp only [loadEnvPaths] at h1
    injection h1 with h1
    rw [← h1]
    exact h
  | cons p rest ih =>
    cases hp : fsys p with
    | absent =>
      rw [loadEnvPaths_cons_absent fsys p rest envs hp] at h1
      exact ih h h1
    | unparsable =>
      rw [loadEnvPaths_cons_unparsable fsys p rest envs hp] at h1
      cases h1
    | parsed m =>
      obtain ⟨e1, ho, hl⟩ := loadEnvPaths_cons_parsed fsys p rest envs m hp
      rw [hl] at h1
      exact ih (EnvOK_loadFile h ho) h1

theorem EnvOK_restoreOriginal (originalEnv : List String) {envs : List String}
    (h : EnvOK envs) : EnvOK (restoreOriginal originalEnv envs) := by
  rw [restoreOriginal_eq]
  exact EnvOK_foldl _ _ h

theorem compose_ok_iff (fsys : FileSystem) (paths envs envs2 : List String) :
    compose fsys paths envs = Except.ok envs2 ↔
      ∃ envs1, loadEnvPaths fsys paths envs = Except.ok envs1 ∧
        envs2 = restoreOriginal (Environ envs) envs1 := by
  unfold compose
  cases hl : loadEnvPaths fsys paths envs with
  | error q => simp
  | ok e1 =>
    simp only [Except.ok.injEq, exists_eq_left']
    exact eq_comm

theorem EnvOK_compose {fsys : FileSystem} {paths envs envs2 : List String}
    (h : EnvOK envs) (h1 : compose fsys paths envs = Except.ok envs2) : EnvOK envs2 := by
  obtain ⟨e1, hl, he⟩ := (compose_ok_iff fsys paths envs envs2).mp h1
  rw [he]
  exact EnvOK_restoreOriginal _ (EnvOK_loadEnvPaths h hl)

/-- The environment composed by `main.go`, key by key: the value of the
starting environment wins, and below it the settable pairs of the parsed files,
later files over earlier ones. -/
theorem lookupEnv_compose (fsys : FileSystem) (k : String) (paths envs envs2 : List String)
    (hok : EnvOK envs) (h : compose fsys paths envs = Except.ok envs2) :
    lookupEnv k envs2 = firstSome (lookupEnv k envs) (filesOverlay fsys k paths none) := by
  obtain ⟨e1, hl, he⟩ := (compose_ok_iff fsys paths envs envs2).mp h
  rw [he, lookupEnv_restoreOriginal, lookupEnv_loadEnvPaths fsys k paths envs e1 hl]
  by_cases hk : k = ""
  · subst hk
    rw [filesOverlay_empty_key, filesOverlay_empty_key, firstSome_none_right]
    apply overlay_none_of
    intro kv _ hkv
    rw [hkv]
    exact settable_empty_key kv.2
  · rw [overlay_original k _ _ hk (EnvOK_Environ hok), lookupEnv_Environ,
      filesOverlay_firstSome, firstSome_absorb]

end MainGo

/-! ### The load of `env_run.go`, key by key -/

namespace Go

theorem SplitHead_of_entryKV {s k v : String} (h : entryKV s = some (k, v)) :
    SplitHead s = k := by
  unfold entryKV at h
  unfold SplitHead
  cases hc : cutEq s.data with
  | none => simp [hc] at h
  | some p =>
    obtain ⟨a, b⟩ := p
    simp [hc] at h
    simp [h.1]

theorem mem_envNames_of_mem_keysOf {k : String} {env : List String} (h : k ∈ keysOf env) :
    k ∈ envNames env := by
  unfold keysOf at h
  obtain ⟨s, hs, hk⟩ := List.mem_filterMap.mp h
  obtain ⟨v, hv⟩ := entryKey_eq_some.mp hk
  exact List.mem_map.mpr ⟨s, hs, SplitHead_of_entryKV hv⟩

theorem mem_envNames_of_lookupEnv {k v : String} {envs : List String}
    (h : lookupEnv k envs = some v) : k ∈ envNames (Environ envs) := by
  apply mem_envNames_of_mem_keysOf
  rw [keysOf_Environ]
  exact mem_keysOf_of_lookupEnv h

theorem mem_envNames_iff_of_wellFormed {k : String} {env : List String}
    (h : ∀ e ∈ env, (entryKV e).isSome = true) :
    k ∈ envNames env ↔ ∃ v, lookupEnv k env = some v := by
  constructor
  · intro hk
    obtain ⟨s, hs, hsk⟩ := List.mem_map.mp hk
    have h1 := h s hs
    cases hkv : entryKV s with
    | none => simp [hkv] at h1
    | some p =>
      obtain ⟨k1, v1⟩ := p
      have h2 : k1 = k := by rw [← SplitHead_of_entryKV hkv, hsk]
      apply lookupEnv_isSome_of_mem_keysOf
      unfold keysOf
      exact List.mem_filterMap.mpr ⟨s, hs, entryKey_eq_some.mpr ⟨v1, by rw [hkv, h2]⟩⟩
  · rintro ⟨v, hv⟩
    exact mem_envNames_of_mem_keysOf (mem_keysOf_of_lookupEnv hv)

theorem mem_envNames_setEntry {k key kv : String} {envs : List String}
    (hkv : entryKey kv = some key) (h : k ∈ envNames (Environ envs)) :
    k ∈ envNames (Environ (setEntry key kv envs)) := by
  have hne : (kv != "") = true := by
    have hempty : entryKey "" = none := by decide
    simp only [bne_iff_ne, ne_eq]
    intro he
    rw [he, hempty] at hkv
    cases hkv
  obtain ⟨v, hv⟩ := entryKey_eq_some.mp hkv
  induction envs with
  | nil => simp [Environ, envNames] at h
  | cons s rest ih =>
    unfold setEntry
    by_cases hs : entryKey s = some key
    · simp only [hs, if_true]
      obtain ⟨v1, hv1⟩ := entryKey_eq_some.mp hs
      have hsne : (s != "") = true := by
        simp only [bne_iff_ne, ne_eq]
        intro he
        rw [he, entryKV_empty] at hv1
        cases hv1
      simp only [Environ, envNames, List.filter, hsne, hne, List.map_cons, List.mem_cons] at h ⊢
      rw [SplitHead_of_entryKV hv]
      rw [SplitHead_of_entryKV hv1] at h
      exact h
    · simp only [hs, if_false]
      by_cases hse : (s != "") = true
      · simp only [Environ, envNames, List.filter, hse, List.map_cons, List.mem_cons] at h ⊢
        rcases h with h1 | h1
        · exact Or.inl h1
        · exact Or.inr (ih h1)
      · simp only [Environ, envNames, List.filter, hse] at h ⊢
        exact ih h

theorem mem_envNames_setenvIgnore {k : String} {envs : List String} (key value : String)
    (h : k ∈ envNames (Environ envs)) :
    k ∈ envNames (Environ (setenvIgnore envs key value)) := by
  rw [setenvIgnore_eq]
  by_cases hs : settable key value = true
  · simp only [hs, if_true]
    have hkv := entryKV_entry key value (settable_spec hs).2.1
    exact mem_envNames_setEntry (entryKey_eq_some.mpr ⟨value, hkv⟩) h
  · simp only [hs]
    exact h

theorem mem_envNames_foldl {k : String} (c : String × String → Bool) (m : EnvMap)
    {envs : List String} (h : k ∈ envNames (Environ envs)) :
    k ∈ envNames (Environ
      (m.foldl (fun e kv => if c kv = true then setenvIgnore e kv.1 kv.2 else e) envs)) := by
  induction m generalizing envs with
  | nil => exact h
  | cons kv rest ih =>
    rw [List.foldl_cons]
    apply ih
    by_cases hc : c kv = true
    · simp only [hc, if_true]
      exact mem_envNames_setenvIgnore _ _ h
    · simp only [hc]
      exact h

end Go

namespace EnvRunGo

open Go

theorem loadEnvPath_absent (fsys : FileSystem) (envPath : String) (envs : List String)
    (h : fsys envPath = FileState.absent) :
    loadEnvPath fsys envPath envs = Except.ok envs := by
  simp [loadEnvPath, Stat_eq_false.mpr h]

theorem loadEnvPath_unparsable (fsys : FileSystem) (envPath : String) (envs : List String)
    (h : fsys envPath = FileState.unparsable) :
    loadEnvPath fsys envPath envs = Except.error envPath := by
  have hs : Stat fsys envPath = true := by simp [Stat, h]
  obtain ⟨err, he⟩ := loadFile_unparsable fsys envs envPath false h
  simp only [loadEnvPath, hs, if_true, Load, he]

theorem loadEnvPath_parsed (fsys : FileSystem) (envPath : String) (envs : List String)
    (m : EnvMap) (h : fsys envPath = FileState.parsed m) :
    ∃ envs1, Load fsys envs envPath = Except.ok envs1 ∧
      loadEnvPath fsys envPath envs = Except.ok envs1 := by
  have hs : Stat fsys envPath = true := by simp [Stat, h]
  have ho := loadFile_parsed fsys envs envPath false m h
  refine ⟨_, ho, ?_⟩
  simp only [loadEnvPath, hs, if_true, Load, ho]

/-- The environment composed by `env_run.go` from a parsed file, key by key:
a name of the starting environment keeps what it had, any other key gets
the settable pair of the file. -/
theorem lookupEnv_loadEnvPath (fsys : FileSystem) (k envPath : String) (envs envs1 : List String)
    (m : EnvMap) (hf : fsys envPath = FileState.parsed m)
    (h : loadEnvPath fsys envPath envs = Except.ok envs1) :
    lookupEnv k envs1 =
      if k ∈ envNames (Environ envs) then lookupEnv k envs
      else overlay (fun kv => settable kv.1 kv.2) k m none := by
  obtain ⟨e1, hl, hp⟩ := loadEnvPath_parsed fsys envPath envs m hf
  rw [hp] at h
  injection h with h
  subst h
  rw [lookupEnv_Load fsys envs e1 envPath m k hf hl]
  by_cases hk : k ∈ envNames (Environ envs)
  · simp only [hk, if_true]
    apply overlay_none_of
    intro kv _ hkv
    have h1 : (envNames (Environ envs)).contains kv.1 = true := by
      rw [hkv]
      simpa using hk
    show (!((envNames (Environ envs)).contains kv.1) && settable kv.1 kv.2) = false
    rw [h1]
    rfl
  · simp only [hk, if_false]
    have hnone : lookupEnv k envs = none := by
      cases hl1 : lookupEnv k envs with
      | none => rfl
      | some v => exact absurd (mem_envNames_of_lookupEnv hl1) hk
    rw [hnone]
    apply overlay_congr
    intro kv _ hkv
    have h1 : (envNames (Environ envs)).contains kv.1 = false := by
      rw [hkv]
      simpa using hk
    show (!((envNames (Environ envs)).contains kv.1) && settable kv.1 kv.2) = settable kv.1 kv.2
    rw [h1]
    rfl

theorem envNames_loadEnvPath {fsys : FileSystem} {k envPath : String} {envs envs1 : List String}
    (h : loadEnvPath fsys envPath envs = Except.ok envs1)
    (hk : k ∈ envNames (Environ envs)) : k ∈ envNames (Environ envs1) := by
  cases hf : fsys envPath with
  | absent =>
    rw [loadEnvPath_absent fsys envPath envs hf] at h
    injection h with h
    rw [← h]
    exact hk
  | unparsable =>
    rw [loadEnvPath_unparsable fsys envPath envs hf] at h
    cases h
  | parsed m =>
    obtain ⟨e1, hl, hp⟩ := loadEnvPath_parsed fsys envPath envs m hf
    rw [hp] at h
    injection h with h
    subst h
    unfold Load at hl
    rw [loadFile_parsed fsys envs envPath false m hf] at hl
    injection hl with hl
    rw [← hl]
    exact mem_envNames_foldl _ m hk

theorem main_child (os : OS) (eFlags : List String) (workDir : String) (args : List String)
    (cmd : Cmd) (h : (main os eFlags workDir args).child = some cmd) :
    ∃ envs, loadEnvPath os.fsys (parseEnvPath eFlags) (initialEnvs os.envp) = Except.ok envs ∧
      cmd.env = Environ envs ∧
      main os eFlags workDir args =
        Outcome.waited cmd (exitCodeAfterWait (Wait (os.run cmd))) := by
  unfold main at h ⊢
  by_cases ha : args.length = 0
  · simp [ha, Outcome.child] at h
  · simp only [ha, if_false] at h ⊢
    cases hl : loadEnvPath os.fsys (parseEnvPath eFlags) (initialEnvs os.envp) with
    | error q => simp [hl, Outcome.child] at h
    | ok envs =>
      simp only [hl] at h ⊢
      refine ⟨envs, rfl, ?_⟩
      split at h
      · simp only [Outcome.child, Option.some.injEq] at h
        subst h
        simp_all
      · simp [Outcome.child] at h

end EnvRunGo

namespace MainGo

open Go

theorem main_env (os : OS) (eFlags : List String) (workDir : String) (args : List String)
    (env : List String) (h : (main os eFlags workDir args).env = some env) :
    ∃ envs, compose os.fsys (defaultEnvPaths (parseEnvPaths eFlags)) (initialEnvs os.envp)
        = Except.ok envs ∧ env = Environ envs := by
  unfold main at h
  by_cases ha : args.length = 0
  · simp [ha, Outcome.env] at h
  · simp only [ha, if_false] at h
    cases hl : compose os.fsys (defaultEnvPaths (parseEnvPaths eFlags)) (initialEnvs os.envp) with
    | error q => simp [hl, Outcome.env] at h
    | ok envs =>
      simp only [hl] at h
      refine ⟨envs, rfl, ?_⟩
      split at h
      · simp [Outcome.env] at h
      · split at h
        · simp [Outcome.env] at h
        · split at h
          · simp [Outcome.env] at h
          · split at h
            · simp only [Outcome.env, Option.some.injEq] at h
              exact h.symm
            · simp [Outcome.env] at h

end MainGo

/-! ### Runs of the two programs -/

namespace Go

theorem exitStatus_natCast (n : Nat) (h : n ≤ 255) : exitStatus (n : Int) = n := by
  unfold exitStatus
  have h1 : ((n : Int) % 256) = (n : Int) := Int.emod_eq_of_lt (by omega) (by omega)
  rw [h1]
  exact Int.toNat_natCast n

theorem firstSome_idem (a b : Option String) :
    firstSome (firstSome a b) b = firstSome a b := by
  cases a <;> cases b <;> rfl

end Go

namespace MainGo

open Go

theorem loadEnvPaths_insertIdx (fsys : FileSystem) (p : String) (h : fsys p = FileState.absent)
    (i : Nat) (paths envs : List String) :
    loadEnvPaths fsys (paths.insertIdx i p) envs = loadEnvPaths fsys paths envs := by
  induction paths generalizing i envs with
  | nil =>
    cases i with
    | zero =>
      rw [List.insertIdx_zero]
      exact loadEnvPaths_cons_absent fsys p [] envs h
    | succ j => rfl
  | cons q rest ih =>
    cases i with
    | zero =>
      rw [List.insertIdx_zero]
      exact loadEnvPaths_cons_absent fsys p (q :: rest) envs h
    | succ j =>
      rw [List.insertIdx_succ_cons]
      cases hq : fsys q with
      | absent =>
        rw [loadEnvPaths_cons_absent fsys q _ envs hq, loadEnvPaths_cons_absent fsys q _ envs hq]
        exact ih j envs
      | unparsable =>
        rw [loadEnvPaths_cons_unparsable fsys q _ envs hq,
          loadEnvPaths_cons_unparsable fsys q _ envs hq]
      | parsed m =>
        obtain ⟨e1, ho1, hl1⟩ := loadEnvPaths_cons_parsed fsys q (rest.insertIdx j p) envs m hq
        obtain ⟨e2, ho2, hl2⟩ := loadEnvPaths_cons_parsed fsys q rest envs m hq
        rw [ho1] at ho2
        injection ho2 with ho2
        rw [hl1, hl2, ← ho2]
        exact ih j e1

theorem loadEnvPaths_error_unparsable {fsys : FileSystem} {paths envs : List String}
    {q : String} (h : loadEnvPaths fsys paths envs = Except.error q) :
    fsys q = FileState.unparsable := by
  induction paths generalizing envs with
  | nil => simp [loadEnvPaths] at h
  | cons p rest ih =>
    cases hp : fsys p with
    | absent =>
      rw [loadEnvPaths_cons_absent fsys p rest envs hp] at h
      exact ih h
    | unparsable =>
      rw [loadEnvPaths_cons_unparsable fsys p rest envs hp] at h
      injection h with h
      rw [← h]
      exact hp
    | parsed m =>
      obtain ⟨e1, _, hl⟩ := loadEnvPaths_cons_parsed fsys p rest envs m hp
      rw [hl] at h
      exact ih h

theorem compose_error_unparsable {fsys : FileSystem} {paths envs : List String}
    {q : String} (h : compose fsys paths envs = Except.error q) :
    fsys q = FileState.unparsable := by
  unfold compose at h
  cases hl : loadEnvPaths fsys paths envs with
  | error q1 =>
    simp only [hl] at h
    injection h with h
    rw [← h]
    exact loadEnvPaths_error_unparsable hl
  | ok e1 => simp [hl] at h

theorem loadEnvPaths_ok_of_ok {fsys : FileSystem} {paths envs envs1 : List String}
    (h : loadEnvPaths fsys paths envs = Except.ok envs1) (other : List String) :
    ∃ e, loadEnvPaths fsys paths other = Except.ok e := by
  apply loadEnvPaths_ok
  intro p hp hu
  obtain ⟨q, _, _, hq⟩ := loadEnvPaths_error fsys paths envs p hp hu
  rw [hq] at h
  cases h

theorem mainB_fatalParse (os : OS) (eFlags : List String) (workDir : String)
    (args : List String) (q : String) (ha : args ≠ [])
    (h : compose os.fsys (defaultEnvPaths (parseEnvPaths eFlags)) (initialEnvs os.envp)
      = Except.error q) :
    main os eFlags workDir args = Outcome.fatalParse q := by
  have hlen : ¬ args.length = 0 := fun hl => ha (List.length_eq_zero.mp hl)
  unfold main
  simp only [hlen, if_false, h]

theorem mainB_launch (os : OS) (eFlags : List String) (workDir : String) (args : List String)
    (envs : List String) (found binary : String) (ha : args ≠ [])
    (hc : compose os.fsys (defaultEnvPaths (parseEnvPaths eFlags)) (initialEnvs os.envp)
      = Except.ok envs)
    (hl : os.lookPath (args.getD 0 "") = some found) (hb : os.abs found = some binary)
    (hd : workDir = "" ∨ os.chdir workDir = true) :
    main os eFlags workDir args =
      if os.exec binary args (Environ envs) = true
      then Outcome.replaced binary args (Environ envs) else Outcome.execFailed := by
  have hlen : ¬ args.length = 0 := fun h0 => ha (List.length_eq_zero.mp h0)
  have hdir : (workDir != "" && !(os.chdir workDir)) = false := by
    rcases hd with h1 | h1
    · simp [h1]
    · simp [h1]
  unfold main
  simp only [hlen, if_false, hc, hl, hb, hdir, Bool.false_eq_true]

theorem mainB_usage (os : OS) (eFlags : List String) (workDir : String) :
    main os eFlags workDir [] = Outcome.usage := by
  simp [main]

end MainGo

namespace EnvRunGo

open Go

theorem mainA_fatalParse (os : OS) (eFlags : List String) (workDir : String)
    (args : List String) (q : String) (ha : args ≠ [])
    (h : loadEnvPath os.fsys (parseEnvPath eFlags) (initialEnvs os.envp) = Except.error q) :
    main os eFlags workDir args = Outcome.fatalParse q := by
  have hlen : ¬ args.length = 0 := fun hl => ha (List.length_eq_zero.mp hl)
  unfold main
  simp only [hlen, if_false, h]

theorem mainA_launch (os : OS) (eFlags : List String) (workDir : String) (args : List String)
    (envs : List String) (ha : args ≠ [])
    (hc : loadEnvPath os.fsys (parseEnvPath eFlags) (initialEnvs os.envp) = Except.ok envs) :
    main os eFlags workDir args =
      if os.start
          { name := args.getD 0 "", args := args.drop 1, dir := workDir, env := Environ envs }
          = true
      then Outcome.waited
          { name := args.getD 0 "", args := args.drop 1, dir := workDir, env := Environ envs }
          (exitCodeAfterWait (Wait (os.run
            { name := args.getD 0 "", args := args.drop 1, dir := workDir,
              env := Environ envs })))
      else Outcome.fatalStart
          { name := args.getD 0 "", args := args.drop 1, dir := workDir, env := Environ envs } := by
  have hlen : ¬ args.length = 0 := fun h0 => ha (List.length_eq_zero.mp h0)
  unfold main
  simp only [hlen, if_false, hc]

theorem mainA_usage (os : OS) (eFlags : List String) (workDir : String) :
    main os eFlags workDir [] = Outcome.usage := by
  simp [main]

theorem forwardAll_append (l1 l2 : List (Signal × Option Process)) :
    forwardAll (l1 ++ l2) = forwardAll l1 ++ forwardAll l2 := by
  induction l1 with
  | nil => rfl
  | cons ev rest ih =>
    obtain ⟨sig, cmdProcess⟩ := ev
    show forward cmdProcess sig ++ forwardAll (rest ++ l2)
      = forward cmdProcess sig ++ forwardAll rest ++ forwardAll l2
    rw [ih, List.append_assoc]

end EnvRunGo

/-! ## The claims -/

namespace Claims

open Go

/-- C1 as stated fails: `first.env` and `nul.env` both exist, parse and
define `FOO`, every entry of the original environment has the form
`NAME=VALUE` and `FOO` is not in it, yet the command is handed the value of
`first.env`, not that of the highest-indexed file that defines `FOO`: the
value in `nul.env` holds a NUL byte and `os.Setenv` rejects the pair. -/
theorem modeB_last_file_value_dropped :
    (∀ e ∈ Environ (initialEnvs Sample.osBNul.envp), hasNameValue e = true) ∧
    (∀ p ∈ MainGo.defaultEnvPaths (MainGo.parseEnvPaths ["first.env", "nul.env"]),
      isParsed Sample.osBNul.fsys p = true) ∧
    lookupEnv "FOO" (Environ (initialEnvs Sample.osBNul.envp)) = none ∧
    lastDefined Sample.osBNul.fsys "FOO" ["first.env", "nul.env"]
      = some (String.mk ['a', NUL, 'b']) ∧
    MainGo.main Sample.osBNul ["first.env", "nul.env"] "" ["printenv", "FOO"]
      = MainGo.Outcome.replaced "/usr/bin/printenv" ["printenv", "FOO"]
          ["BAR=shell", "HOME=/root", "FOO=one", "OK=fine"] ∧
    lookupEnv "FOO" ["BAR=shell", "HOME=/root", "FOO=one", "OK=fine"] = some "one" ∧
    lookupEnv "FOO" ["BAR=shell", "HOME=/root", "FOO=one", "OK=fine"]
      ≠ lastDefined Sample.osBNul.fsys "FOO" ["first.env", "nul.env"] := by
  decide

/-- C1, amended. Mode B (`main.go`): when every entry of the original
environment `E` has the form `NAME=VALUE`, every env file of the list exists
and parses, a command is given and found and the directory change, if any,
succeeds, then `main` calls `syscall.Exec` with an environment that gives to
every key `k` the value `E[k]` when `k` is in `E`, otherwise the value of the
highest-indexed file that defines `k` with a pair that `os.Setenv` accepts,
otherwise nothing. -/
theorem modeB_precedence (os : MainGo.OS) (eFlags : List String) (workDir : String)
    (args : List String) (found binary : String)
    (_hE : ∀ e ∈ Environ (initialEnvs os.envp), hasNameValue e = true)
    (hF : ∀ p ∈ MainGo.defaultEnvPaths (MainGo.parseEnvPaths eFlags),
      isParsed os.fsys p = true)
    (hargs : args ≠ [])
    (hlook : os.lookPath (args.getD 0 "") = some found)
    (habs : os.abs found = some binary)
    (hdir : workDir = "" ∨ os.chdir workDir = true) :
    ∃ env,
      MainGo.main os eFlags workDir args =
        (if os.exec binary args env = true then MainGo.Outcome.replaced binary args env
         else MainGo.Outcome.execFailed) ∧
      ∀ k, lookupEnv k env =
        match lookupEnv k (Environ (initialEnvs os.envp)) with
        | some v => some v
        | none =>
          lastDefinedLegal os.fsys k (MainGo.defaultEnvPaths (MainGo.parseEnvPaths eFlags)) := by
  obtain ⟨e1, he1⟩ := MainGo.loadEnvPaths_ok os.fsys
    (MainGo.defaultEnvPaths (MainGo.parseEnvPaths eFlags)) (initialEnvs os.envp)
    (by
      intro p hp hu
      have h1 := hF p hp
      simp [isParsed, hu] at h1)
  have hc : MainGo.compose os.fsys (MainGo.defaultEnvPaths (MainGo.parseEnvPaths eFlags))
      (initialEnvs os.envp)
        = Except.ok (MainGo.restoreOriginal (Environ (initialEnvs os.envp)) e1) :=
    (MainGo.compose_ok_iff _ _ _ _).mpr ⟨e1, he1, rfl⟩
  refine ⟨_, MainGo.mainB_launch os eFlags workDir args _ found binary hargs hc hlook habs hdir,
    ?_⟩
  intro k
  rw [lookupEnv_Environ, lookupEnv_Environ,
    MainGo.lookupEnv_compose os.fsys k _ _ _ (EnvOK_initialEnvs os.envp) hc,
    filesOverlay_eq_lastDefinedLegal, firstSome_none_right]
  rfl

/-- A run of the amended C1: two env files that both define `FOO`, in a shell
that sets `BAR`; the command is found and replaces the process. -/
theorem modeB_precedence_witness :
    (∀ e ∈ Environ (initialEnvs Sample.osB.envp), hasNameValue e = true) ∧
    (∀ p ∈ MainGo.defaultEnvPaths (MainGo.parseEnvPaths ["first.env", "second.env"]),
      isParsed Sample.osB.fsys p = true) ∧
    Sample.osB.lookPath (["printenv", "FOO"].getD 0 "") = some "/usr/bin/printenv" ∧
    Sample.osB.abs "/usr/bin/printenv" = some "/usr/bin/printenv" ∧
    MainGo.main Sample.osB ["first.env", "second.env"] "" ["printenv", "FOO"]
      = MainGo.Outcome.replaced "/usr/bin/printenv" ["printenv", "FOO"]
          ["BAR=shell", "HOME=/root", "FOO=two"] ∧
    ∃ env,
      MainGo.main Sample.osB ["first.env", "second.env"] "" ["printenv", "FOO"] =
        (if Sample.osB.exec "/usr/bin/printenv" ["printenv", "FOO"] env = true
         then MainGo.Outcome.replaced "/usr/bin/printenv" ["printenv", "FOO"] env
         else MainGo.Outcome.execFailed) ∧
      ∀ k, lookupEnv k env =
        match lookupEnv k (Environ (initialEnvs Sample.osB.envp)) with
        | some v => some v
        | none =>
          lastDefinedLegal Sample.osB.fsys k
            (MainGo.defaultEnvPaths (MainGo.parseEnvPaths ["first.env", "second.env"])) :=
  ⟨by decide, by decide, by decide, by decide, by decide,
    modeB_precedence Sample.osB ["first.env", "second.env"] "" ["printenv", "FOO"]
      "/usr/bin/printenv" "/usr/bin/printenv" (by decide) (by decide) (by decide) (by decide)
      (by decide) (Or.inl rfl)⟩

/-- C2 as stated fails, in two ways. The env file `nul.env` exists, parses
and defines `FOO`, and `FOO` is not in the environment, yet the child is
started without `FOO`: the value holds a NUL byte and `os.Setenv` rejects the
pair. And when the environment holds the entry `FOO` without `=`, which gives
`FOO` no value, the child is started without the `FOO` of `first.env`. -/
theorem modeA_file_value_not_loaded :
    (lookupEnv "FOO" (Environ (initialEnvs ["BAR=shell"])) = none ∧
      fileGet Sample.fsysNul "FOO" "nul.env" = some (String.mk ['a', NUL, 'b']) ∧
      EnvRunGo.main (Sample.osAWith ["BAR=shell"]) ["nul.env"] "" ["printenv", "FOO"]
        = EnvRunGo.Outcome.waited
            { name := "printenv", args := ["FOO"], dir := "", env := ["BAR=shell", "OK=fine"] }
            0 ∧
      lookupEnv "FOO" ["BAR=shell", "OK=fine"] = none) ∧
    (lookupEnv "FOO" (Environ (initialEnvs ["FOO", "BAR=shell"])) = none ∧
      fileGet Sample.fsysNul "FOO" "first.env" = some "one" ∧
      EnvRunGo.main (Sample.osAWith ["FOO", "BAR=shell"]) ["first.env"] "" ["printenv", "FOO"]
        = EnvRunGo.Outcome.waited
            { name := "printenv", args := ["FOO"], dir := "", env := ["FOO", "BAR=shell"] }
            0 ∧
      lookupEnv "FOO" ["FOO", "BAR=shell"] = none) := by
  decide

/-- C2, amended. Mode A (`env_run.go`): for every starting environment `E`,
when the env file exists and parses to `F` and a command is given, `main`
starts the child with an environment that gives to every key `k` the value
`E[k]` when `E` has an entry `k=VALUE` (also for an empty `VALUE`); nothing
when `E` has the entry `k` without `=`; otherwise the value of the pair of
`F` for `k` when `os.Setenv` accepts that pair; otherwise nothing. -/
theorem modeA_precedence (os : EnvRunGo.OS) (eFlags : List String) (workDir : String)
    (args : List String) (F : EnvMap)
    (hF : os.fsys (EnvRunGo.parseEnvPath eFlags) = FileState.parsed F)
    (hargs : args ≠ []) :
    ∃ cmd : EnvRunGo.Cmd,
      EnvRunGo.main os eFlags workDir args =
        (if os.start cmd = true
         then EnvRunGo.Outcome.waited cmd (EnvRunGo.exitCodeAfterWait (Wait (os.run cmd)))
         else EnvRunGo.Outcome.fatalStart cmd) ∧
      cmd.name = args.getD 0 "" ∧ cmd.args = args.drop 1 ∧ cmd.dir = workDir ∧
      ∀ k, lookupEnv k cmd.env =
        match lookupEnv k (Environ (initialEnvs os.envp)) with
        | some v => some v
        | none =>
          if k ∈ envNames (Environ (initialEnvs os.envp)) then none else legalGet F k := by
  obtain ⟨e1, _, hl⟩ := EnvRunGo.loadEnvPath_parsed os.fsys (EnvRunGo.parseEnvPath eFlags)
    (initialEnvs os.envp) F hF
  refine ⟨{ name := args.getD 0 "", args := args.drop 1, dir := workDir, env := Environ e1 },
    EnvRunGo.mainA_launch os eFlags workDir args e1 hargs hl, rfl, rfl, rfl, ?_⟩
  intro k
  show lookupEnv k (Environ e1) = _
  rw [lookupEnv_Environ, lookupEnv_Environ,
    EnvRunGo.lookupEnv_loadEnvPath os.fsys k _ _ e1 F hF hl,
    overlay_settable_eq_legalGet]
  by_cases hk : k ∈ envNames (Environ (initialEnvs os.envp))
  · simp only [hk, if_true]
    cases lookupEnv k (initialEnvs os.envp) <;> rfl
  · simp only [hk, if_false]
    have hnone : lookupEnv k (initialEnvs os.envp) = none := by
      cases hl1 : lookupEnv k (initialEnvs os.envp) with
      | none => rfl
      | some v => exact absurd (mem_envNames_of_lookupEnv hl1) hk
    rw [hnone]

/-- A run of the amended C2: the env file defines `FOO` and `BAR`, the shell
sets `BAR`, and the child is started with the shell value of `BAR`. -/
theorem modeA_precedence_witness :
    (Sample.osA (Termination.exited 0)).fsys (EnvRunGo.parseEnvPath ["first.env"])
      = FileState.parsed [("FOO", "one"), ("BAR", "one")] ∧
    EnvRunGo.main (Sample.osA (Termination.exited 0)) ["first.env"] "" ["printenv", "BAR"]
      = EnvRunGo.Outcome.waited
          { name := "printenv", args := ["BAR"], dir := "",
            env := ["BAR=shell", "HOME=/root", "FOO=one"] } 0 ∧
    ∃ cmd : EnvRunGo.Cmd,
      EnvRunGo.main (Sample.osA (Termination.exited 0)) ["first.env"] "" ["printenv", "BAR"] =
        (if (Sample.osA (Termination.exited 0)).start cmd = true
         then EnvRunGo.Outcome.waited cmd
           (EnvRunGo.exitCodeAfterWait (Wait ((Sample.osA (Termination.exited 0)).run cmd)))
         else EnvRunGo.Outcome.fatalStart cmd) ∧
      cmd.name = ["printenv", "BAR"].getD 0 "" ∧ cmd.args = ["printenv", "BAR"].drop 1 ∧
      cmd.dir = "" ∧
      ∀ k, lookupEnv k cmd.env =
        match lookupEnv k (Environ (initialEnvs (Sample.osA (Termination.exited 0)).envp)) with
        | some v => some v
        | none =>
          if k ∈ envNames (Environ (initialEnvs (Sample.osA (Termination.exited 0)).envp))
          then none else legalGet [("FOO", "one"), ("BAR", "one")] k :=
  ⟨by decide, by decide,
    modeA_precedence (Sample.osA (Termination.exited 0)) ["first.env"] "" ["printenv", "BAR"]
      [("FOO", "one"), ("BAR", "one")] (by decide) (by decide)⟩


/-- C3. Strategy 1, exit code pass-through: for every status `n` in `0..255`,
when the child was started and exits normally with status `n`, the parent
exits with status `n`. -/
theorem exit_code_pass_through (os : EnvRunGo.OS) (eFlags : List String) (workDir : String)
    (args : List String) (cmd : EnvRunGo.Cmd) (n : Nat) (hn : n ≤ 255)
    (hc : (EnvRunGo.main os eFlags workDir args).child = some cmd)
    (hr : os.run cmd = Termination.exited n) :
    (EnvRunGo.main os eFlags workDir args).status = n := by
  obtain ⟨_, _, _, hm⟩ := EnvRunGo.main_child os eFlags workDir args cmd hc
  rw [hm, hr]
  simp only [EnvRunGo.Outcome.status, Wait]
  by_cases h0 : n = 0
  · subst h0
    decide
  · simp only [h0, if_false, EnvRunGo.exitCodeAfterWait, ProcessState.ExitCode]
    exact exitStatus_natCast n hn

/-- A run of C3: the child exits with status 3 and so does the parent. -/
theorem exit_code_pass_through_witness :
    3 ≤ 255 ∧
    (EnvRunGo.main (Sample.osA (Termination.exited 3)) [] "" ["sh", "-c", "exit 3"]).status = 3 :=
  ⟨by decide,
    exit_code_pass_through (Sample.osA (Termination.exited 3)) [] "" ["sh", "-c", "exit 3"]
      { name := "sh", args := ["-c", "exit 3"], dir := "",
        env := ["BAR=shell", "HOME=/root"] } 3 (by decide) (by decide) rfl⟩

/-- C4 as stated fails: a child killed by signal 9 makes the parent exit with
status 255, not 1. -/
theorem signaled_child_status_not_one :
    (EnvRunGo.main (Sample.osA (Termination.signaled 9)) [] "" ["sleep", "60"]).child ≠ none ∧
    (EnvRunGo.main (Sample.osA (Termination.signaled 9)) [] "" ["sleep", "60"]).status = 255 ∧
    (EnvRunGo.main (Sample.osA (Termination.signaled 9)) [] "" ["sleep", "60"]).status ≠ 1 := by
  decide

/-- C4, amended. Strategy 1, abnormal termination: when the child was started
and waiting on it fails with an error that is not an exit error, the parent
exits with status 1; when the child is killed by a signal, the exit error
carries the code `-1` and the parent exits with status 255. -/
theorem abnormal_termination_status (os : EnvRunGo.OS) (eFlags : List String)
    (workDir : String) (args : List String) (cmd : EnvRunGo.Cmd)
    (hc : (EnvRunGo.main os eFlags workDir args).child = some cmd) :
    (os.run cmd = Termination.waitFailed →
      (EnvRunGo.main os eFlags workDir args).status = 1) ∧
    (∀ sig, os.run cmd = Termination.signaled sig →
      (EnvRunGo.main os eFlags workDir args).status = 255) := by
  obtain ⟨_, _, _, hm⟩ := EnvRunGo.main_child os eFlags workDir args cmd hc
  constructor
  · intro hr
    rw [hm, hr]
    rfl
  · intro sig hr
    rw [hm, hr]
    rfl

/-- A run of the amended C4: waiting on the started child fails. -/
theorem abnormal_termination_status_witness :
    (EnvRunGo.main (Sample.osA Termination.waitFailed) [] "" ["sleep", "60"]).child
      = some { name := "sleep", args := ["60"], dir := "", env := ["BAR=shell", "HOME=/root"] } ∧
    (EnvRunGo.main (Sample.osA Termination.waitFailed) [] "" ["sleep", "60"]).status = 1 :=
  ⟨by decide,
    (abnormal_termination_status (Sample.osA Termination.waitFailed) [] "" ["sleep", "60"]
      { name := "sleep", args := ["60"], dir := "", env := ["BAR=shell", "HOME=/root"] }
      (by decide)).1 rfl⟩

/-- C5. A missing env file is skipped without effect. Mode B: composing with a
path that does not exist inserted at any position of the list gives the
result of composing the list without it, and never the fatal error of that
path. Mode A: with a file that does not
exist the load succeeds and the environment handed to the child is the
original environment. -/
theorem missing_file_skipped :
    (∀ (fsys : FileSystem) (envs paths : List String) (p : String) (i : Nat),
      fsys p = FileState.absent →
      MainGo.compose fsys (paths.insertIdx i p) envs = MainGo.compose fsys paths envs ∧
      MainGo.compose fsys (paths.insertIdx i p) envs ≠ Except.error p) ∧
    (∀ (os : EnvRunGo.OS) (eFlags : List String) (workDir : String) (args : List String),
      os.fsys (EnvRunGo.parseEnvPath eFlags) = FileState.absent →
      EnvRunGo.loadEnvPath os.fsys (EnvRunGo.parseEnvPath eFlags) (initialEnvs os.envp)
        = Except.ok (initialEnvs os.envp) ∧
      ∀ cmd, (EnvRunGo.main os eFlags workDir args).child = some cmd →
        cmd.env = Environ (initialEnvs os.envp)) := by
  constructor
  · intro fsys envs paths p i hp
    constructor
    · unfold MainGo.compose
      rw [MainGo.loadEnvPaths_insertIdx fsys p hp i paths envs]
    · intro herr
      have hu := MainGo.compose_error_unparsable herr
      rw [hp] at hu
      cases hu
  · intro os eFlags workDir args hp
    have hl := EnvRunGo.loadEnvPath_absent os.fsys (EnvRunGo.parseEnvPath eFlags)
      (initialEnvs os.envp) hp
    refine ⟨hl, ?_⟩
    intro cmd hcmd
    obtain ⟨envs, hl1, he, _⟩ := EnvRunGo.main_child os eFlags workDir args cmd hcmd
    rw [hl] at hl1
    injection hl1 with hl1
    rw [he, ← hl1]

/-- A run of C5: a missing path between two env files, and a missing env file
for the supervised child. -/
theorem missing_file_skipped_witness :
    Sample.fsys "nowhere.env" = FileState.absent ∧
    MainGo.compose Sample.fsys (["first.env", "second.env"].insertIdx 1 "nowhere.env")
        (initialEnvs ["BAR=shell"])
      = MainGo.compose Sample.fsys ["first.env", "second.env"] (initialEnvs ["BAR=shell"]) ∧
    EnvRunGo.loadEnvPath (Sample.osA (Termination.exited 0)).fsys
        (EnvRunGo.parseEnvPath ["nowhere.env"])
        (initialEnvs (Sample.osA (Termination.exited 0)).envp)
      = Except.ok (initialEnvs (Sample.osA (Termination.exited 0)).envp) :=
  ⟨by decide,
    (missing_file_skipped.1 Sample.fsys (initialEnvs ["BAR=shell"]) ["first.env", "second.env"]
      "nowhere.env" 1 (by decide)).1,
    (missing_file_skipped.2 (Sample.osA (Termination.exited 0)) ["nowhere.env"] "" ["printenv"]
      (by decide)).1⟩

/-- C6. A malformed env file is fatal before launch. Mode B: when any path of
the list exists but fails to parse, whatever its position and whatever the
other files hold, the process image is not replaced, and with a command given
the run ends in the fatal parse error of an unparsable file. Mode A: when the
env file exists but fails to parse, no child is started, and with a command
given the run ends in the fatal parse error of that file. -/
theorem malformed_file_fatal :
    (∀ (os : MainGo.OS) (eFlags : List String) (workDir : String) (args : List String)
      (p : String),
      p ∈ MainGo.defaultEnvPaths (MainGo.parseEnvPaths eFlags) →
      os.fsys p = FileState.unparsable →
      (MainGo.main os eFlags workDir args).env = none ∧
      (args ≠ [] → ∃ q, os.fsys q = FileState.unparsable ∧
        MainGo.main os eFlags workDir args = MainGo.Outcome.fatalParse q)) ∧
    (∀ (os : EnvRunGo.OS) (eFlags : List String) (workDir : String) (args : List String),
      os.fsys (EnvRunGo.parseEnvPath eFlags) = FileState.unparsable →
      (EnvRunGo.main os eFlags workDir args).child = none ∧
      (args ≠ [] → EnvRunGo.main os eFlags workDir args
        = EnvRunGo.Outcome.fatalParse (EnvRunGo.parseEnvPath eFlags))) := by
  constructor
  · intro os eFlags workDir args p hp hu
    obtain ⟨q, _, hq2, hq3⟩ := MainGo.loadEnvPaths_error os.fsys _ (initialEnvs os.envp) p hp hu
    have hc : MainGo.compose os.fsys (MainGo.defaultEnvPaths (MainGo.parseEnvPaths eFlags))
        (initialEnvs os.envp) = Except.error q := by
      unfold MainGo.compose
      simp only [hq3]
    have hfatal : args ≠ [] → MainGo.main os eFlags workDir args = MainGo.Outcome.fatalParse q :=
      fun ha => MainGo.mainB_fatalParse os eFlags workDir args q ha hc
    refine ⟨?_, fun ha => ⟨q, hq2, hfatal ha⟩⟩
    cases args with
    | nil =>
      rw [MainGo.mainB_usage]
      rfl
    | cons a rest =>
      rw [hfatal (List.cons_ne_nil a rest)]
      rfl
  · intro os eFlags workDir args hu
    have hl := EnvRunGo.loadEnvPath_unparsable os.fsys (EnvRunGo.parseEnvPath eFlags)
      (initialEnvs os.envp) hu
    have hfatal : args ≠ [] → EnvRunGo.main os eFlags workDir args
        = EnvRunGo.Outcome.fatalParse (EnvRunGo.parseEnvPath eFlags) :=
      fun ha => EnvRunGo.mainA_fatalParse os eFlags workDir args _ ha hl
    refine ⟨?_, hfatal⟩
    cases args with
    | nil =>
      rw [EnvRunGo.mainA_usage]
      rfl
    | cons a rest =>
      rw [hfatal (List.cons_ne_nil a rest)]
      rfl

/-- A run of C6: a broken env file between two good ones, and a broken env
file for the supervised child. -/
theorem malformed_file_fatal_witness :
    "broken.env" ∈ MainGo.defaultEnvPaths
      (MainGo.parseEnvPaths ["first.env", "broken.env", "second.env"]) ∧
    Sample.osB.fsys "broken.env" = FileState.unparsable ∧
    (MainGo.main Sample.osB ["first.env", "broken.env", "second.env"] "" ["printenv"]).env
      = none ∧
    (EnvRunGo.main (Sample.osA (Termination.exited 0)) ["broken.env"] "" ["printenv"]).child
      = none :=
  ⟨by decide, by decide,
    (malformed_file_fatal.1 Sample.osB ["first.env", "broken.env", "second.env"] ""
      ["printenv"] "broken.env" (by decide) (by decide)).1,
    (malformed_file_fatal.2 (Sample.osA (Termination.exited 0)) ["broken.env"] ""
      ["printenv"] (by decide)).1⟩


/-- C7. Idempotence of composition, in each mode: when composing the file list
on the starting environment succeeds, composing the same list again on the
environment that resulted succeeds too and yields the same environment map. -/
theorem composition_idempotent :
    (∀ (fsys : FileSystem) (paths envp envs1 : List String),
      MainGo.compose fsys paths (initialEnvs envp) = Except.ok envs1 →
      ∃ envs2, MainGo.compose fsys paths envs1 = Except.ok envs2 ∧
        ∀ k, lookupEnv k (Environ envs2) = lookupEnv k (Environ envs1)) ∧
    (∀ (fsys : FileSystem) (envPath : String) (envp envs1 : List String),
      EnvRunGo.loadEnvPath fsys envPath (initialEnvs envp) = Except.ok envs1 →
      ∃ envs2, EnvRunGo.loadEnvPath fsys envPath envs1 = Except.ok envs2 ∧
        ∀ k, lookupEnv k (Environ envs2) = lookupEnv k (Environ envs1)) := by
  constructor
  · intro fsys paths envp envs1 h1
    have hok1 : EnvOK envs1 := MainGo.EnvOK_compose (EnvOK_initialEnvs envp) h1
    obtain ⟨e1, hl1, _⟩ := (MainGo.compose_ok_iff fsys paths _ envs1).mp h1
    obtain ⟨e2, hl2⟩ := MainGo.loadEnvPaths_ok_of_ok hl1 envs1
    have h2 : MainGo.compose fsys paths envs1
        = Except.ok (MainGo.restoreOriginal (Environ envs1) e2) :=
      (MainGo.compose_ok_iff fsys paths envs1 _).mpr ⟨e2, hl2, rfl⟩
    refine ⟨_, h2, ?_⟩
    intro k
    rw [lookupEnv_Environ, lookupEnv_Environ,
      MainGo.lookupEnv_compose fsys k paths envs1 _ hok1 h2,
      MainGo.lookupEnv_compose fsys k paths _ envs1 (EnvOK_initialEnvs envp) h1,
      firstSome_idem]
  · intro fsys envPath envp envs1 h1
    cases hf : fsys envPath with
    | absent =>
      exact ⟨envs1, EnvRunGo.loadEnvPath_absent fsys envPath envs1 hf, fun _ => rfl⟩
    | unparsable =>
      rw [EnvRunGo.loadEnvPath_unparsable fsys envPath _ hf] at h1
      cases h1
    | parsed m =>
      obtain ⟨e2, _, h2⟩ := EnvRunGo.loadEnvPath_parsed fsys envPath envs1 m hf
      refine ⟨e2, h2, ?_⟩
      intro k
      rw [lookupEnv_Environ, lookupEnv_Environ,
        EnvRunGo.lookupEnv_loadEnvPath fsys k envPath envs1 e2 m hf h2]
      by_cases hk : k ∈ envNames (Environ envs1)
      · simp only [hk, if_true]
      · simp only [hk, if_false]
        have hk0 : k ∉ envNames (Environ (initialEnvs envp)) :=
          fun hm => hk (EnvRunGo.envNames_loadEnvPath h1 hm)
        rw [EnvRunGo.lookupEnv_loadEnvPath fsys k envPath _ envs1 m hf h1]
        simp only [hk0, if_false]

/-- A run of C7: two env files composed twice in Mode B, one env file loaded
twice in Mode A. -/
theorem composition_idempotent_witness :
    MainGo.compose Sample.fsys ["first.env", "second.env"] (initialEnvs ["BAR=shell"])
      = Except.ok ["BAR=shell", "FOO=two"] ∧
    EnvRunGo.loadEnvPath Sample.fsys "first.env" (initialEnvs ["BAR=shell"])
      = Except.ok ["BAR=shell", "FOO=one"] ∧
    (∃ envs2, MainGo.compose Sample.fsys ["first.env", "second.env"] ["BAR=shell", "FOO=two"]
        = Except.ok envs2 ∧
      ∀ k, lookupEnv k (Environ envs2) = lookupEnv k (Environ ["BAR=shell", "FOO=two"])) ∧
    (∃ envs2, EnvRunGo.loadEnvPath Sample.fsys "first.env" ["BAR=shell", "FOO=one"]
        = Except.ok envs2 ∧
      ∀ k, lookupEnv k (Environ envs2) = lookupEnv k (Environ ["BAR=shell", "FOO=one"])) :=
  ⟨rfl, rfl,
    composition_idempotent.1 Sample.fsys ["first.env", "second.env"] ["BAR=shell"]
      ["BAR=shell", "FOO=two"] rfl,
    composition_idempotent.2 Sample.fsys "first.env" ["BAR=shell"]
      ["BAR=shell", "FOO=one"] rfl⟩

/-- C8 as stated fails: with `-e first.env -e second.env`, both defining `FOO`
and `FOO` not in the original environment, the command is handed the value of
the second file, not that of the first. -/
theorem repeated_flag_first_does_not_win :
    lookupEnv "FOO" (Environ (initialEnvs Sample.osB.envp)) = none ∧
    fileGet Sample.osB.fsys "FOO" "first.env" = some "one" ∧
    fileGet Sample.osB.fsys "FOO" "second.env" = some "two" ∧
    (MainGo.main Sample.osB ["first.env", "second.env"] "" ["printenv", "FOO"]).env.bind
        (lookupEnv "FOO") = some "two" ∧
    (MainGo.main Sample.osB ["first.env", "second.env"] "" ["printenv", "FOO"]).env.bind
        (lookupEnv "FOO") ≠ fileGet Sample.osB.fsys "FOO" "first.env" := by
  decide

/-- C8, amended. CLI precedence of repeated `-e` in `main.go`: later
occurrences have higher precedence than earlier ones. For `-e F1 -e F2` where
both files exist, parse and define `k`, `k` is not in the original
environment and `os.Setenv` accepts the pair of `F2` for `k`, when a command
is given and found and the directory change, if any, succeeds, `main` calls
`syscall.Exec` with an environment in which `k` has the value `F2[k]`. -/
theorem repeated_flag_later_wins (os : MainGo.OS) (workDir : String) (args : List String)
    (f1 f2 k v1 v2 found binary : String) (F1 F2 : EnvMap)
    (h1 : os.fsys f1 = FileState.parsed F1) (h2 : os.fsys f2 = FileState.parsed F2)
    (_hk1 : mapGet F1 k = some v1) (hk2 : mapGet F2 k = some v2)
    (hs : settable k v2 = true)
    (hE : lookupEnv k (Environ (initialEnvs os.envp)) = none)
    (hargs : args ≠ [])
    (hlook : os.lookPath (args.getD 0 "") = some found)
    (habs : os.abs found = some binary)
    (hdir : workDir = "" ∨ os.chdir workDir = true) :
    ∃ env,
      MainGo.main os [f1, f2] workDir args =
        (if os.exec binary args env = true then MainGo.Outcome.replaced binary args env
         else MainGo.Outcome.execFailed) ∧
      lookupEnv k env = some v2 := by
  have hpaths : MainGo.defaultEnvPaths (MainGo.parseEnvPaths [f1, f2]) = [f1, f2] := by
    rw [MainGo.parseEnvPaths_eq]
    rfl
  obtain ⟨e1, he1⟩ := MainGo.loadEnvPaths_ok os.fsys [f1, f2] (initialEnvs os.envp)
    (by
      intro p hp hu
      rcases List.mem_cons.mp hp with he | hp1
      · rw [he, h1] at hu
        cases hu
      · rw [List.mem_singleton.mp hp1, h2] at hu
        cases hu)
  have hc : MainGo.compose os.fsys [f1, f2] (initialEnvs os.envp)
      = Except.ok (MainGo.restoreOriginal (Environ (initialEnvs os.envp)) e1) :=
    (MainGo.compose_ok_iff _ _ _ _).mpr ⟨e1, he1, rfl⟩
  have hc1 := hc
  rw [← hpaths] at hc1
  refine ⟨_, MainGo.mainB_launch os [f1, f2] workDir args _ found binary hargs hc1 hlook habs
    hdir, ?_⟩
  have h0 : lastDefinedLegal os.fsys k [] = none := rfl
  have hf2 : fileGetLegal os.fsys k f2 = some v2 := by
    simp only [fileGetLegal, h2]
    exact legalGet_of_mapGet hk2 hs
  rw [lookupEnv_Environ] at hE
  rw [lookupEnv_Environ,
    MainGo.lookupEnv_compose os.fsys k _ _ _ (EnvOK_initialEnvs os.envp) hc,
    filesOverlay_eq_lastDefinedLegal, firstSome_none_right, hE, firstSome_none,
    lastDefinedLegal_cons, lastDefinedLegal_cons, h0, firstSome_none, hf2]
  rfl

/-- A run of the amended C8: `-e first.env -e second.env`, key `FOO`. -/
theorem repeated_flag_later_wins_witness :
    Sample.osB.fsys "first.env" = FileState.parsed [("FOO", "one"), ("BAR", "one")] ∧
    Sample.osB.fsys "second.env" = FileState.parsed [("FOO", "two")] ∧
    mapGet [("FOO", "one"), ("BAR", "one")] "FOO" = some "one" ∧
    mapGet [("FOO", "two")] "FOO" = some "two" ∧
    settable "FOO" "two" = true ∧
    lookupEnv "FOO" (Environ (initialEnvs Sample.osB.envp)) = none ∧
    MainGo.main Sample.osB ["first.env", "second.env"] "" ["printenv", "FOO"]
      = MainGo.Outcome.replaced "/usr/bin/printenv" ["printenv", "FOO"]
          ["BAR=shell", "HOME=/root", "FOO=two"] ∧
    ∃ env,
      MainGo.main Sample.osB ["first.env", "second.env"] "" ["printenv", "FOO"] =
        (if Sample.osB.exec "/usr/bin/printenv" ["printenv", "FOO"] env = true
         then MainGo.Outcome.replaced "/usr/bin/printenv" ["printenv", "FOO"] env
         else MainGo.Outcome.execFailed) ∧
      lookupEnv "FOO" env = some "two" :=
  ⟨by decide, by decide, by decide, by decide, by decide, by decide, by decide,
    repeated_flag_later_wins Sample.osB "" ["printenv", "FOO"] "first.env" "second.env"
      "FOO" "one" "two" "/usr/bin/printenv" "/usr/bin/printenv"
      [("FOO", "one"), ("BAR", "one")] [("FOO", "two")]
      (by decide) (by decide) (by decide) (by decide) (by decide) (by decide) (by decide)
      (by decide) (by decide) (Or.inl rfl)⟩

/-- C10. The two variants agree on a single file: when every entry of the
original environment has the form `NAME=VALUE` with a non-empty `NAME` and
the env file parses or is missing, the composition of `main.go` on the
one-element list and the load of `env_run.go` both succeed and give the same
environment map; and both use the path `.env` when no `-e` flag is given. -/
theorem modes_agree_on_one_file (fsys : FileSystem) (envp : List String) (envPath : String)
    (hE : ∀ e ∈ Environ (initialEnvs envp), hasNonEmptyName e = true)
    (hp : fsys envPath ≠ FileState.unparsable) :
    (∃ envsB envsA,
      MainGo.compose fsys [envPath] (initialEnvs envp) = Except.ok envsB ∧
      EnvRunGo.loadEnvPath fsys envPath (initialEnvs envp) = Except.ok envsA ∧
      ∀ k, lookupEnv k (Environ envsB) = lookupEnv k (Environ envsA)) ∧
    MainGo.defaultEnvPaths (MainGo.parseEnvPaths []) = [EnvRunGo.parseEnvPath []] ∧
    EnvRunGo.parseEnvPath [] = ".env" := by
  refine ⟨?_, rfl, rfl⟩
  have hwf : ∀ e ∈ Environ (initialEnvs envp), (entryKV e).isSome = true := by
    intro e he
    have h1 := hE e he
    unfold hasNonEmptyName at h1
    cases hkv : entryKV e with
    | none => simp [hkv] at h1
    | some kv => rfl
  obtain ⟨e1, he1⟩ := MainGo.loadEnvPaths_ok fsys [envPath] (initialEnvs envp)
    (by
      intro p hm hu
      rw [List.mem_singleton.mp hm] at hu
      exact hp hu)
  have hB : MainGo.compose fsys [envPath] (initialEnvs envp)
      = Except.ok (MainGo.restoreOriginal (Environ (initialEnvs envp)) e1) :=
    (MainGo.compose_ok_iff _ _ _ _).mpr ⟨e1, he1, rfl⟩
  have hBk := fun k => MainGo.lookupEnv_compose fsys k [envPath] _ _ (EnvOK_initialEnvs envp) hB
  cases hf : fsys envPath with
  | unparsable => exact absurd hf hp
  | absent =>
    refine ⟨_, _, hB, EnvRunGo.loadEnvPath_absent fsys envPath _ hf, ?_⟩
    intro k
    rw [lookupEnv_Environ, lookupEnv_Environ, hBk k]
    simp only [filesOverlay, hf]
    exact firstSome_none_right _
  | parsed m =>
    obtain ⟨eA, _, hA⟩ := EnvRunGo.loadEnvPath_parsed fsys envPath (initialEnvs envp) m hf
    refine ⟨_, eA, hB, hA, ?_⟩
    intro k
    rw [lookupEnv_Environ, lookupEnv_Environ, hBk k,
      EnvRunGo.lookupEnv_loadEnvPath fsys k envPath _ eA m hf hA]
    simp only [filesOverlay, hf]
    by_cases hk : k ∈ envNames (Environ (initialEnvs envp))
    · simp only [hk, if_true]
      obtain ⟨v, hv⟩ := (mem_envNames_iff_of_wellFormed hwf).mp hk
      rw [lookupEnv_Environ] at hv
      rw [hv]
      rfl
    · simp only [hk, if_false]
      have hnone : lookupEnv k (initialEnvs envp) = none := by
        cases hl : lookupEnv k (initialEnvs envp) with
        | none => rfl
        | some v => exact absurd (mem_envNames_of_lookupEnv hl) hk
      rw [hnone]
      rfl

/-- A run of C10: the env file defines `FOO` and `BAR`, the shell sets
`BAR`. -/
theorem modes_agree_on_one_file_witness :
    (∀ e ∈ Environ (initialEnvs ["BAR=shell", "HOME=/root"]), hasNonEmptyName e = true) ∧
    Sample.fsys "first.env" ≠ FileState.unparsable ∧
    (∃ envsB envsA,
      MainGo.compose Sample.fsys ["first.env"] (initialEnvs ["BAR=shell", "HOME=/root"])
        = Except.ok envsB ∧
      EnvRunGo.loadEnvPath Sample.fsys "first.env" (initialEnvs ["BAR=shell", "HOME=/root"])
        = Except.ok envsA ∧
      ∀ k, lookupEnv k (Environ envsB) = lookupEnv k (Environ envsA)) :=
  ⟨by decide, by decide,
    (modes_agree_on_one_file Sample.fsys ["BAR=shell", "HOME=/root"] "first.env"
      (by decide) (by decide)).1⟩

end Claims
